import Mathlib

/-!
# Verification of the digital_processing signal-filter library

A shallow embedding, in Lean 4, of the core of the `digital_processing`
repository: the five denoising filters (median, adaptive predictive (LMS),
morphological, outlier detection/interpolation, Savitzky-Golay) and the
quality metrics (SNR, MSE, correlation).

Doubles are modelled as exact rationals (`ℚ`); the irrational primitives
`sqrt`/`log10` that appear only inside already-returned metric values are
abstracted as explicit function parameters.  Exceptions
(`std::invalid_argument` / `std::runtime_error`) are modelled with `Except`.
Every definition mirrors the corresponding C++ function of the repository.
-/

set_option maxRecDepth 10000

/-- A signal: ordered sequence of real samples (C++ `std::vector<double>`). -/
abbrev Signal := List ℚ

namespace SignalProcessor

/-- Insert a value into a sorted list, keeping it sorted.  Helper for
`sortList` (the model of `std::sort` on a `std::vector<double>`). -/
def insertSorted (x : ℚ) : List ℚ → List ℚ
  | [] => [x]
  | y :: ys => if x ≤ y then x :: y :: ys else y :: insertSorted x ys

/-- Ascending sort of a list of samples; models `std::sort` (any correct
sort yields the same sorted sequence of values). -/
def sortList : List ℚ → List ℚ
  | [] => []
  | x :: xs => insertSorted x (sortList xs)

/-- `SignalProcessor::median`: 0 on an empty vector, otherwise sort and take
the middle element (average of the two middle elements for an even size). -/
def median (values : List ℚ) : ℚ :=
  if values = [] then 0
  else
    let s := sortList values
    let size := s.length
    if size % 2 = 0 then (s.getD (size / 2 - 1) 0 + s.getD (size / 2) 0) / 2
    else s.getD (size / 2) 0

/-- `SignalProcessor::mad`: median absolute deviation about a given centre. -/
def mad (values : List ℚ) (med : ℚ) : ℚ :=
  median (values.map (fun v => |v - med|))

/-- `SignalProcessor::linearInterpolate` with its division guard. -/
def linearInterpolate (x1 y1 x2 y2 x : ℚ) : ℚ :=
  if |x2 - x1| < 1 / 10 ^ 10 then y1
  else y1 + (y2 - y1) * (x - x1) / (x2 - x1)

end SignalProcessor

namespace MedianFilter

/-- `MedianFilter::computeWindowMedian`: clip the window `[index-half,
index+half]` to the signal, then pad with the first/last sample back up to
exactly `windowSize` entries, and take the median. -/
def computeWindowMedian (windowSize : Nat) (input : Signal) (index : Nat) : ℚ :=
  let halfWindow := windowSize / 2
  let startIdx := if index ≥ halfWindow then index - halfWindow else 0
  let endIdx := min (index + halfWindow + 1) input.length
  let window := (List.range' startIdx (endIdx - startIdx)).map (fun i => input.getD i 0)
  let window :=
    if index < halfWindow then
      List.replicate (halfWindow - index) (input.getD 0 0) ++ window
    else window
  let window :=
    if index + halfWindow ≥ input.length then
      window ++ List.replicate (index + halfWindow + 1 - input.length) (input.getLastD 0)
    else window
  SignalProcessor.median window

/-- `MedianFilter::process`: empty input is returned as-is, otherwise each
sample is replaced by its window median. -/
def process (windowSize : Nat) (input : Signal) : Signal :=
  if input = [] then []
  else (List.range input.length).map (computeWindowMedian windowSize input)

/-- `MedianFilter::IsValidWindowSize`: positive and odd. -/
def IsValidWindowSize (windowSize : Nat) : Bool :=
  windowSize ≠ 0 && windowSize % 2 ≠ 0

/-- `MedianFilter::MedianFilter` / `setWindowSize`: throws
`std::invalid_argument` unless the window size is positive and odd. -/
def mk (windowSize : Nat) : Except String Nat :=
  if IsValidWindowSize windowSize then .ok windowSize
  else .error "Window size must be positive and odd"

/-- The window that `computeWindowMedian` takes the median of. -/
def paddedWindow (windowSize : Nat) (input : Signal) (index : Nat) : List ℚ :=
  let halfWindow := windowSize / 2
  let startIdx := if index ≥ halfWindow then index - halfWindow else 0
  let endIdx := min (index + halfWindow + 1) input.length
  let window := (List.range' startIdx (endIdx - startIdx)).map (fun i => input.getD i 0)
  let window :=
    if index < halfWindow then
      List.replicate (halfWindow - index) (input.getD 0 0) ++ window
    else window
  if index + halfWindow ≥ input.length then
    window ++ List.replicate (index + halfWindow + 1 - input.length) (input.getLastD 0)
  else window

end MedianFilter

namespace QualityMetrics

/-- Sum of `f` over the indices `0, …, n-1` of two signals, written as a
structural recursion so that concrete instances evaluate by `simp`. -/
def sumIdx (f : Nat → ℚ) : Nat → ℚ
  | 0 => 0
  | n + 1 => sumIdx f n + f n

/-- `calculateSNR`.  `log10` is irrational, so the model takes it as an
explicit parameter; it is only applied to the already-computed power ratio. -/
def calculateSNR (log10 : ℚ → ℚ) (clean noisy : Signal) : ℚ :=
  if clean.length ≠ noisy.length ∨ clean = [] then 0
  else
    let signalPower := (sumIdx (fun i => clean.getD i 0 * clean.getD i 0) clean.length) / clean.length
    let noisePower := (sumIdx (fun i =>
      (noisy.getD i 0 - clean.getD i 0) * (noisy.getD i 0 - clean.getD i 0)) clean.length) / clean.length
    if noisePower < 1 / 10 ^ 10 then 100
    else 10 * log10 (signalPower / noisePower)

/-- `calculateMSE`. -/
def calculateMSE (original processed : Signal) : ℚ :=
  if original.length ≠ processed.length ∨ original = [] then 0
  else (sumIdx (fun i =>
    (original.getD i 0 - processed.getD i 0) * (original.getD i 0 - processed.getD i 0))
      original.length) / original.length

/-- `calculateCorrelation`.  `sqrt` is irrational, so the model takes it as
an explicit parameter applied to the product of the two sums of squares. -/
def calculateCorrelation (sqrt : ℚ → ℚ) (signal1 signal2 : Signal) : ℚ :=
  if signal1.length ≠ signal2.length ∨ signal1 = [] then 0
  else
    let n := signal1.length
    let mean1 := (sumIdx (fun i => signal1.getD i 0) n) / n
    let mean2 := (sumIdx (fun i => signal2.getD i 0) n) / n
    let numerator := sumIdx (fun i => (signal1.getD i 0 - mean1) * (signal2.getD i 0 - mean2)) n
    let sumSq1 := sumIdx (fun i => (signal1.getD i 0 - mean1) * (signal1.getD i 0 - mean1)) n
    let sumSq2 := sumIdx (fun i => (signal2.getD i 0 - mean2) * (signal2.getD i 0 - mean2)) n
    let denominator := sqrt (sumSq1 * sumSq2)
    if denominator < 1 / 10 ^ 10 then 0
    else numerator / denominator

end QualityMetrics

namespace WienerFilter

/-- The state of a `WienerFilter` instance: the configuration parameters and
the adaptive weight vector (the only mutable state besides them). -/
structure State where
  filterOrder : Nat
  mu : ℚ
  lambda : ℚ
  weights : List ℚ
  deriving DecidableEq, Repr

/-- `WienerFilter::reset`: reinitialise the weights with small pseudo-random
perturbations.  The unseeded C global `rand()` is modelled as an explicit
stream `rnd` of draws in `[0,1]` (the value of `rand()/RAND_MAX`). -/
def resetWeights (filterOrder : Nat) (rnd : Nat → ℚ) : List ℚ :=
  (List.range filterOrder).map (fun i => 1 / 1000 * (rnd i - 1 / 2))

/-- Parameter validation shared by the constructor and `setParameters`. -/
def validParams (filterOrder : Nat) (mu lambda : ℚ) : Prop :=
  filterOrder ≠ 0 ∧ 0 < mu ∧ mu < 1 ∧ 0 < lambda ∧ lambda ≤ 1

instance (o : Nat) (m l : ℚ) : Decidable (validParams o m l) := by
  unfold validParams; infer_instance

/-- `WienerFilter::WienerFilter`: validate, then `reset()`. -/
def mk (filterOrder : Nat) (mu lambda : ℚ) (rnd : Nat → ℚ) : Except String State :=
  if filterOrder = 0 then .error "Filter order must be positive"
  else if mu ≤ 0 ∨ 1 ≤ mu then .error "Adaptation step mu must be in (0, 1)"
  else if lambda ≤ 0 ∨ 1 < lambda then .error "Forgetting factor lambda must be in (0, 1]"
  else .ok ⟨filterOrder, mu, lambda, resetWeights filterOrder rnd⟩

/-- `WienerFilter::setParameters`: same validation, then store the new
parameters and `reset()`. -/
def setParameters (_st : State) (filterOrder : Nat) (mu lambda : ℚ) (rnd : Nat → ℚ) :
    Except String State :=
  if filterOrder = 0 then .error "Filter order must be positive"
  else if mu ≤ 0 ∨ 1 ≤ mu then .error "Adaptation step mu must be in (0, 1)"
  else if lambda ≤ 0 ∨ 1 < lambda then .error "Forgetting factor lambda must be in (0, 1]"
  else .ok ⟨filterOrder, mu, lambda, resetWeights filterOrder rnd⟩

/-- Dot product of the weight vector with the delay buffer
(`y += weights_[i] * delayBuffer[i]`). -/
def dot (a b : List ℚ) : ℚ := (List.zipWith (· * ·) a b).sum

/-- The delay-buffer shift in `processLMS`: drop the oldest entry and push
the new raw sample at the front. -/
def shiftDelay (delay : List ℚ) (x : ℚ) : List ℚ := x :: delay.dropLast

/-- The desired (target) value of `processLMS` at sample `n`: the raw sample
itself at `n = 0`, otherwise the average of `input[n-1]` and `input[n+1]`,
where `input[n+1]` degrades to `input[n]` at the last sample. -/
def lmsDesired (input : Signal) (n : Nat) : ℚ :=
  if n = 0 then input.getD n 0
  else 1 / 2 * (input.getD (n - 1) 0 +
    (if n < input.length - 1 then input.getD (n + 1) 0 else input.getD n 0))

/-- One iteration of the `processLMS` loop: shift the delay buffer, compute
the output `y = weights · delay`, the error against `lmsDesired`, and the
LMS weight update `weight[i] += mu * error * delay[i]`. -/
def lmsStep (mu : ℚ) (input : Signal) (n : Nat) (weights delay : List ℚ) :
    List ℚ × List ℚ × ℚ :=
  let delay' := shiftDelay delay (input.getD n 0)
  let y := dot weights delay'
  let error := lmsDesired input n - y
  let weights' := List.zipWith (fun w d => w + mu * error * d) weights delay'
  (weights', delay', y)

/-- The state of the `processLMS` loop after `k` samples:
`(weights, delayBuffer, outputs so far)`. -/
def lmsRun (mu : ℚ) (w0 : List ℚ) (input : Signal) : Nat → List ℚ × List ℚ × List ℚ
  | 0 => (w0, List.replicate w0.length 0, [])
  | k + 1 =>
    let s := lmsRun mu w0 input k
    let r := lmsStep mu input k s.1 s.2.1
    (r.1, r.2.1, s.2.2 ++ [r.2.2])

/-- `WienerFilter::processLMS`: run the LMS loop over the whole signal,
returning the output signal and the final weight vector. -/
def processLMS (mu : ℚ) (w0 : List ℚ) (input : Signal) : Signal × List ℚ :=
  let s := lmsRun mu w0 input input.length
  (s.2.2, s.1)

/-- `WienerFilter::process`: empty input short-circuits (leaving the weights
untouched); otherwise dispatch to the LMS pass and store its final weights. -/
def process (st : State) (input : Signal) : Signal × State :=
  if input = [] then ([], st)
  else
    let r := processLMS st.mu st.weights input
    (r.1, { st with weights := r.2 })

end WienerFilter

namespace OutlierDetection

/-- `OutlierDetection::DetectionMethod`. -/
inductive DetectionMethod
  | MAD_BASED
  | STATISTICAL
  | ADAPTIVE_THRESHOLD
  deriving DecidableEq, Repr

/-- `OutlierDetection::InterpolationMethod`. -/
inductive InterpolationMethod
  | LINEAR
  | SPLINE
  | MEDIAN_BASED
  | AUTOREGRESSIVE
  deriving DecidableEq, Repr

/-- Configuration of an `OutlierDetection` instance (`arOrder_` is the fixed
internal constant 5). -/
structure State where
  detectionMethod : DetectionMethod
  interpolationMethod : InterpolationMethod
  threshold : ℚ
  windowSize : Nat
  arOrder : Nat := 5
  deriving DecidableEq, Repr

/-- `OutlierDetection::OutlierDetection` / `setParameters` validation. -/
def mk (detectionMethod : DetectionMethod) (interpolationMethod : InterpolationMethod)
    (threshold : ℚ) (windowSize : Nat) : Except String State :=
  if threshold ≤ 0 then .error "Threshold must be positive"
  else if windowSize = 0 ∨ windowSize % 2 = 0 then .error "Window size must be positive and odd"
  else .ok ⟨detectionMethod, interpolationMethod, threshold, windowSize, 5⟩

/-- The boundary-clipped (unpadded) window of indices around `i`. -/
def clippedIdx (halfWindow length i : Nat) : List Nat :=
  let startIdx := if i ≥ halfWindow then i - halfWindow else 0
  let endIdx := min (i + halfWindow + 1) length
  List.range' startIdx (endIdx - startIdx)

/-- `OutlierDetection::detectMADBased`: flag `i` when the clipped window has
at least 3 samples, its MAD is positive, and `|input[i] − median|` exceeds
`threshold × MAD`. -/
def detectMADBased (threshold : ℚ) (windowSize : Nat) (input : Signal) : List Bool :=
  (List.range input.length).map (fun i =>
    let window := (clippedIdx (windowSize / 2) input.length i).map (fun j => input.getD j 0)
    if window.length < 3 then false
    else
      let med := SignalProcessor.median window
      let madValue := SignalProcessor.mad window med
      decide (madValue > 0 ∧ |input.getD i 0 - med| > threshold * madValue))

/-- `OutlierDetection::detectStatistical`: global z-score test; no flags when
the standard deviation (`sqrtFn` of the variance) is zero. -/
def detectStatistical (sqrtFn : ℚ → ℚ) (threshold : ℚ) (input : Signal) : List Bool :=
  let n := input.length
  let mean := (QualityMetrics.sumIdx (fun i => input.getD i 0) n) / n
  let variance := (QualityMetrics.sumIdx (fun i =>
    (input.getD i 0 - mean) * (input.getD i 0 - mean)) n) / n
  let stddev := sqrtFn variance
  if stddev = 0 then List.replicate n false
  else (List.range n).map (fun i => decide (|input.getD i 0 - mean| / stddev > threshold))

/-- `OutlierDetection::detectAdaptiveThreshold`: local mean/stddev with the
centre sample excluded; flat fallback threshold when the local stddev is 0. -/
def detectAdaptiveThreshold (sqrtFn : ℚ → ℚ) (threshold : ℚ) (windowSize : Nat)
    (input : Signal) : List Bool :=
  (List.range input.length).map (fun i =>
    let others := (clippedIdx (windowSize / 2) input.length i).filter (fun j => j ≠ i)
    if others.length = 0 then false
    else
      let count : ℚ := others.length
      let localMean := (others.map (fun j => input.getD j 0)).sum / count
      let localVariance := (others.map (fun j =>
        (input.getD j 0 - localMean) * (input.getD j 0 - localMean))).sum / count
      let localStddev := sqrtFn localVariance
      let adaptiveThreshold := if localStddev = 0 then threshold else threshold * localStddev
      decide (|input.getD i 0 - localMean| > adaptiveThreshold))

/-- Left half of `findNearestNormalPoints`: nearest non-flagged index at or
below `k`. -/
def searchLeft (outliers : List Bool) : Nat → Option Nat
  | 0 => if outliers.getD 0 true then none else some 0
  | k + 1 => if outliers.getD (k + 1) true then searchLeft outliers k else some (k + 1)

/-- Right half of `findNearestNormalPoints`: nearest non-flagged index in
`[k, length)`, searched with explicit fuel. -/
def searchRight (outliers : List Bool) : Nat → Nat → Option Nat
  | _, 0 => none
  | k, fuel + 1 =>
    if k < outliers.length then
      if outliers.getD k true then searchRight outliers (k + 1) fuel else some k
    else none

/-- `OutlierDetection::findNearestNormalPoints`. -/
def findNearestNormalPoints (outliers : List Bool) (index : Nat) : Option Nat × Option Nat :=
  (if index = 0 then none else searchLeft outliers (index - 1),
   searchRight outliers (index + 1) outliers.length)

/-- `OutlierDetection::interpolateLinear`: replace each flagged sample using
its nearest non-flagged neighbours (copy a single side if only one exists,
keep the original value if neither exists). -/
def interpolateLinear (input : Signal) (outliers : List Bool) : Signal :=
  (List.range input.length).map (fun i =>
    if outliers.getD i false then
      match findNearestNormalPoints outliers i with
      | (some l, some r) =>
        SignalProcessor.linearInterpolate l (input.getD l 0) r (input.getD r 0) i
      | (some l, none) => input.getD l 0
      | (none, some r) => input.getD r 0
      | (none, none) => input.getD i 0
    else input.getD i 0)

/-- `OutlierDetection::interpolateMedian`: median of the non-flagged
neighbours within a capped half-window of `min(windowSize/2, 5)`. -/
def interpolateMedian (windowSize : Nat) (input : Signal) (outliers : List Bool) : Signal :=
  let halfWindow := min (windowSize / 2) 5
  (List.range input.length).map (fun i =>
    if outliers.getD i false then
      let neighbors := ((clippedIdx halfWindow input.length i).filter
        (fun j => j ≠ i ∧ outliers.getD j false = false)).map (fun j => input.getD j 0)
      if neighbors = [] then input.getD i 0
      else SignalProcessor.median neighbors
    else input.getD i 0)

/-- The inverse-distance-weighted sums over the previous `k` samples used by
`interpolateAutoregressive` (pairs of weighted sum and weight sum). -/
def arAcc (result : List ℚ) (outliers : List Bool) (i : Nat) : Nat → ℚ × ℚ
  | 0 => (0, 0)
  | k + 1 =>
    let p := arAcc result outliers i k
    if k + 1 ≤ i ∧ outliers.getD (i - (k + 1)) false = false then
      (p.1 + 1 / (k + 1 : ℚ) * result.getD (i - (k + 1)) 0, p.2 + 1 / (k + 1 : ℚ))
    else p

/-- The sequential left-to-right loop of `interpolateAutoregressive`: each
flagged index is replaced using already-substituted earlier values, falling
back to the linear interpolation when no eligible predecessor exists. -/
def arLoop (arOrder : Nat) (input : Signal) (outliers : List Bool) :
    List Nat → List ℚ → List ℚ
  | [], result => result
  | i :: rest, result =>
    if outliers.getD i false then
      let p := arAcc result outliers i arOrder
      let result' :=
        if p.2 > 0 then result.set i (p.1 / p.2)
        else result.set i ((interpolateLinear input outliers).getD i 0)
      arLoop arOrder input outliers rest result'
    else arLoop arOrder input outliers rest result

/-- `OutlierDetection::interpolateAutoregressive`. -/
def interpolateAutoregressive (arOrder : Nat) (input : Signal) (outliers : List Bool) : Signal :=
  arLoop arOrder input outliers (List.range input.length) input

/-- `OutlierDetection::detectOutliers` dispatch. -/
def detectOutliers (sqrtFn : ℚ → ℚ) (st : State) (input : Signal) : List Bool :=
  match st.detectionMethod with
  | .MAD_BASED => detectMADBased st.threshold st.windowSize input
  | .STATISTICAL => detectStatistical sqrtFn st.threshold input
  | .ADAPTIVE_THRESHOLD => detectAdaptiveThreshold sqrtFn st.threshold st.windowSize input

/-- `OutlierDetection::process`: detect, then interpolate (the spline branch
degrades to linear interpolation). -/
def process (sqrtFn : ℚ → ℚ) (st : State) (input : Signal) : Signal :=
  if input = [] then []
  else
    let outliers := detectOutliers sqrtFn st input
    match st.interpolationMethod with
    | .LINEAR => interpolateLinear input outliers
    | .MEDIAN_BASED => interpolateMedian st.windowSize input outliers
    | .AUTOREGRESSIVE => interpolateAutoregressive st.arOrder input outliers
    | .SPLINE => interpolateLinear input outliers

end OutlierDetection

namespace MorphologicalFilter

/-- `MorphologicalFilter::Operation`. -/
inductive Operation
  | OPENING
  | CLOSING
  | EROSION
  | DILATION
  deriving DecidableEq, Repr

/-- `MorphologicalFilter::createFlatElement` (validation of the zero size is
done in `mkFlat`): a structuring element of all zeros. -/
def createFlatElement (size : Nat) : List ℚ := List.replicate size 0

/-- Configuration of a `MorphologicalFilter` instance. -/
structure State where
  operation : Operation
  structuringElement : List ℚ
  deriving DecidableEq, Repr

/-- The constructor taking an explicit structuring element: throws when the
element is empty. -/
def mkWithElement (operation : Operation) (structuringElement : List ℚ) :
    Except String State :=
  if structuringElement = [] then .error "Structuring element cannot be empty"
  else .ok ⟨operation, structuringElement⟩

/-- The constructor taking a flat-element size: `createFlatElement` throws
when the size is zero. -/
def mkFlat (operation : Operation) (elementSize : Nat) : Except String State :=
  if elementSize = 0 then .error "Element size must be positive"
  else .ok ⟨operation, createFlatElement elementSize⟩

/-- The erosion accumulator over element positions `t < k`: minimum of
`input[i − half + t] − element[t]` over the in-bounds positions (the bound
test `0 ≤ i − half + t < length` is written in `Nat` arithmetic), `none`
when no position is in bounds (the `DBL_MAX` sentinel of the source). -/
def eroFold (elem : List ℚ) (input : Signal) (i : Nat) : Nat → Option ℚ
  | 0 => none
  | t + 1 =>
    let acc := eroFold elem input i t
    let half := elem.length / 2
    if half ≤ i + t ∧ i + t - half < input.length then
      let v := input.getD (i + t - half) 0 - elem.getD t 0
      some (match acc with | none => v | some a => min a v)
    else acc

/-- `MorphologicalFilter::erosion` at one sample, with the fallback to the
raw sample when no element position was in bounds. -/
def erosionAt (elem : List ℚ) (input : Signal) (i : Nat) : ℚ :=
  (eroFold elem input i elem.length).getD (input.getD i 0)

/-- `MorphologicalFilter::erosion`. -/
def erosion (elem : List ℚ) (input : Signal) : Signal :=
  (List.range input.length).map (erosionAt elem input)

/-- The dilation accumulator: maximum of `input[i − half + t] + element[t]`
over in-bounds positions (`DBL_LOWEST` sentinel modelled as `none`). -/
def dilFold (elem : List ℚ) (input : Signal) (i : Nat) : Nat → Option ℚ
  | 0 => none
  | t + 1 =>
    let acc := dilFold elem input i t
    let half := elem.length / 2
    if half ≤ i + t ∧ i + t - half < input.length then
      let v := input.getD (i + t - half) 0 + elem.getD t 0
      some (match acc with | none => v | some a => max a v)
    else acc

/-- `MorphologicalFilter::dilation` at one sample. -/
def dilationAt (elem : List ℚ) (input : Signal) (i : Nat) : ℚ :=
  (dilFold elem input i elem.length).getD (input.getD i 0)

/-- `MorphologicalFilter::dilation`. -/
def dilation (elem : List ℚ) (input : Signal) : Signal :=
  (List.range input.length).map (dilationAt elem input)

/-- `MorphologicalFilter::opening`: erosion followed by dilation with the
same structuring element. -/
def opening (elem : List ℚ) (input : Signal) : Signal :=
  dilation elem (erosion elem input)

/-- `MorphologicalFilter::closing`: dilation followed by erosion. -/
def closing (elem : List ℚ) (input : Signal) : Signal :=
  erosion elem (dilation elem input)

/-- `MorphologicalFilter::process`: empty input short-circuits, otherwise
dispatch on the configured operation. -/
def process (st : State) (input : Signal) : Signal :=
  if input = [] then []
  else
    match st.operation with
    | .EROSION => erosion st.structuringElement input
    | .DILATION => dilation st.structuringElement input
    | .OPENING => opening st.structuringElement input
    | .CLOSING => closing st.structuringElement input

end MorphologicalFilter

/-- The two error kinds of the design: configuration errors
(`std::invalid_argument`) and `NumericalError` (`std::runtime_error` from the
Savitzky-Golay linear solver). -/
inductive FilterError
  | invalidConfiguration (msg : String)
  | numericalError (msg : String)
  deriving DecidableEq, Repr

namespace SavgolFilter

/-- Sum of `f` over `lo, lo+1, …, lo+len-1`, as a structural recursion. -/
def sumFrom (f : Nat → ℚ) : Nat → Nat → ℚ
  | _, 0 => 0
  | lo, len + 1 => f lo + sumFrom f (lo + 1) len

/-- Row swap of a `Nat`-indexed matrix (`std::swap(matrix[i], matrix[maxRow])`). -/
def swapRows (M : Nat → Nat → ℚ) (a b : Nat) : Nat → Nat → ℚ :=
  fun k j => if k = a then M b j else if k = b then M a j else M k j

/-- Entry swap of the right-hand side vector. -/
def swapVec (v : Nat → ℚ) (a b : Nat) : Nat → ℚ :=
  fun k => if k = a then v b else if k = b then v a else v k

/-- The partial-pivot search: scan `len` rows starting at `k`, keeping the
row with the largest `|M row col|` (strict improvement, as in the source). -/
def pivotLoop (M : Nat → Nat → ℚ) (col : Nat) : Nat → Nat → Nat → Nat
  | best, _, 0 => best
  | best, k, len + 1 =>
    pivotLoop M col (if |M k col| > |M best col| then k else best) (k + 1) len

/-- The elimination update of all rows below pivot row `i` (each row `k > i`
subtracts `factor · row i` on columns `i … n-1`). -/
def elimM (M : Nat → Nat → ℚ) (i n : Nat) : Nat → Nat → ℚ :=
  fun k j =>
    if i < k ∧ k < n ∧ i ≤ j ∧ j < n then M k j - M k i / M i i * M i j else M k j

/-- The matching elimination update of the right-hand side. -/
def elimV (M : Nat → Nat → ℚ) (v : Nat → ℚ) (i n : Nat) : Nat → ℚ :=
  fun k => if i < k ∧ k < n then v k - M k i / M i i * v i else v k

/-- The forward (elimination) pass of `SavgolFilter::gaussElimination`:
pivot search, row swap, singularity check against `1e-12`, elimination;
`fuel` counts the remaining pivot columns. -/
def forwardAux (n : Nat) :
    Nat → Nat → (Nat → Nat → ℚ) → (Nat → ℚ) →
      Except FilterError ((Nat → Nat → ℚ) × (Nat → ℚ))
  | 0, _, M, rhs => .ok (M, rhs)
  | fuel + 1, i, M, rhs =>
    let p := pivotLoop M i i (i + 1) (n - (i + 1))
    let M1 := swapRows M i p
    let r1 := swapVec rhs i p
    if |M1 i i| < 1 / 10 ^ 12 then .error (.numericalError "Matrix is singular")
    else forwardAux n fuel (i + 1) (elimM M1 i n) (elimV M1 r1 i n)

/-- The back-substitution pass: `backSolveFun U c n k` holds the solved
values of the last `k` unknowns (`solution[i] = (rhs[i] − Σ_{j>i} U[i][j]
x[j]) / U[i][i]`, from the bottom row up). -/
def backSolveFun (U : Nat → Nat → ℚ) (c : Nat → ℚ) (n : Nat) : Nat → Nat → ℚ
  | 0 => fun _ => 0
  | k + 1 =>
    let x := backSolveFun U c n k
    let i := n - (k + 1)
    fun j =>
      if j = i then (c i - sumFrom (fun j' => U i j' * x j') (i + 1) (n - (i + 1))) / U i i
      else x j

/-- Materialise `f 0, …, f (k-1)` as a list (the returned `std::vector`). -/
def natList (f : Nat → ℚ) : Nat → List ℚ
  | 0 => []
  | k + 1 => natList f k ++ [f k]

/-- `SavgolFilter::gaussElimination` on an `n × n` system. -/
def gaussElimination (n : Nat) (M : Nat → Nat → ℚ) (rhs : Nat → ℚ) :
    Except FilterError (List ℚ) :=
  (forwardAux n n 0 M rhs).map (fun s => natList (backSolveFun s.1 s.2 n n) n)

/-- The normal-equation matrix of `SavgolFilter::calculateCoefficients`:
entry `(i,j)` is `Σ_{k=-half}^{half} k^(i+j)`. -/
def normalMatrix (windowSize : Nat) : Nat → Nat → ℚ :=
  fun i j =>
    let half := windowSize / 2
    sumFrom (fun t => (((t : ℤ) - (half : ℤ) : ℤ) : ℚ) ^ (i + j)) 0 (2 * half + 1)

/-- The right-hand side selecting the 0th-order coefficient at the centre. -/
def normalRhs : Nat → ℚ := fun i => if i = 0 then 1 else 0

/-- `SavgolFilter::calculateCoefficients`: solve the least-squares system and
evaluate the fitted polynomial basis at each offset to get the `W` taps. -/
def calculateCoefficients (windowSize polyOrder : Nat) : Except FilterError (List ℚ) :=
  let half := windowSize / 2
  (gaussElimination (polyOrder + 1) (normalMatrix windowSize) normalRhs).map
    (fun polyCoeffs =>
      natList (fun i =>
        sumFrom (fun j => polyCoeffs.getD j 0 * (((i : ℤ) - (half : ℤ) : ℤ) : ℚ) ^ j)
          0 (polyOrder + 1)) windowSize)

/-- Configuration and cached coefficients of a `SavgolFilter` instance. -/
structure State where
  windowSize : Nat
  polyOrder : Nat
  coefficients : List ℚ
  deriving DecidableEq, Repr

/-- `SavgolFilter::SavgolFilter` / `setParameters`: validate the window size
and polynomial order, then compute and cache the coefficients. -/
def mk (windowSize polyOrder : Nat) : Except FilterError State :=
  if windowSize = 0 ∨ windowSize % 2 = 0 then
    .error (.invalidConfiguration "Window size must be positive and odd")
  else if polyOrder ≥ windowSize then
    .error (.invalidConfiguration "Polynomial order must be less than window size")
  else (calculateCoefficients windowSize polyOrder).map (⟨windowSize, polyOrder, ·⟩)

/-- The input index actually read by `SavgolFilter::getReflectedValue` for a
requested (possibly out-of-range) index. -/
def reflectIndex (length : Nat) (index : ℤ) : ℤ :=
  if index < 0 then -index
  else if index ≥ (length : ℤ) then
    if 2 * (length : ℤ) - 2 - index < 0 then 0 else 2 * (length : ℤ) - 2 - index
  else index

/-- `SavgolFilter::getReflectedValue`: reflective boundary read. -/
def getReflectedValue (input : Signal) (index : ℤ) : ℚ :=
  input.getD (reflectIndex input.length index).toNat 0

/-- `SavgolFilter::applyFilter`: convolve the cached taps with the
reflectively-extended input around `centerIndex`. -/
def applyFilter (st : State) (input : Signal) (centerIndex : Nat) : ℚ :=
  sumFrom (fun t =>
    st.coefficients.getD t 0 *
      getReflectedValue input ((centerIndex : ℤ) - (st.windowSize / 2 : Nat) + t))
    0 st.windowSize

/-- `SavgolFilter::process`. -/
def process (st : State) (input : Signal) : Signal :=
  if input = [] then []
  else (List.range input.length).map (applyFilter st input)

end SavgolFilter

namespace WienerFilter

/-- The delay buffer contents after sample `n` has been pushed: the last
`min (n+1) P` raw samples, newest first, zero-padded. -/
def delayVec (P : Nat) (input : Signal) (n : Nat) : List ℚ :=
  (List.range P).map (fun i => if i ≤ n then input.getD (n - i) 0 else 0)

/-- Modelled from the claim: the target is "the average of the raw sample
before and the raw sample after `n`, or just the single existing neighbor
when `n` is at a boundary (first or last sample)". -/
def claimTarget (input : Signal) (n : Nat) : ℚ :=
  if input.length ≤ 1 then input.getD n 0
  else if n = 0 then input.getD 1 0
  else if n = input.length - 1 then input.getD (n - 1) 0
  else (input.getD (n - 1) 0 + input.getD (n + 1) 0) / 2

/-- The LMS iteration as the claim describes it (identical to `lmsStep`
except for the target). -/
def lmsStepClaim (mu : ℚ) (input : Signal) (n : Nat) (weights delay : List ℚ) :
    List ℚ × List ℚ × ℚ :=
  let delay' := shiftDelay delay (input.getD n 0)
  let y := dot weights delay'
  let error := claimTarget input n - y
  let weights' := List.zipWith (fun w d => w + mu * error * d) weights delay'
  (weights', delay', y)

/-- The LMS loop under the claim's target. -/
def lmsRunClaim (mu : ℚ) (w0 : List ℚ) (input : Signal) : Nat → List ℚ × List ℚ × List ℚ
  | 0 => (w0, List.replicate w0.length 0, [])
  | k + 1 =>
    let s := lmsRunClaim mu w0 input k
    let r := lmsStepClaim mu input k s.1 s.2.1
    (r.1, r.2.1, s.2.2 ++ [r.2.2])

/-- `processLMS` as the claim describes it. -/
def processLMSClaim (mu : ℚ) (w0 : List ℚ) (input : Signal) : Signal × List ℚ :=
  let s := lmsRunClaim mu w0 input input.length
  (s.2.2, s.1)

/-- The amended C3 target, written from the amended claim: the raw sample
itself at `n = 0`; otherwise the average of the previous raw sample and the
next raw sample, the next degrading to the sample itself at the last
position. -/
def amendedTarget (input : Signal) (n : Nat) : ℚ :=
  if n = 0 then input.getD 0 0
  else if n + 1 ≤ input.length - 1 then (input.getD (n - 1) 0 + input.getD (n + 1) 0) / 2
  else (input.getD (n - 1) 0 + input.getD n 0) / 2

/-- The weight recurrence of the amended claim: `weights ← weights + μ ·
(target − weights · delay) · delay` with the amended target. -/
def specWeights (mu : ℚ) (w0 : List ℚ) (input : Signal) : Nat → List ℚ
  | 0 => w0
  | n + 1 =>
    let d := delayVec w0.length input n
    let y := dot (specWeights mu w0 input n) d
    List.zipWith (fun w dv => w + mu * (amendedTarget input n - y) * dv)
      (specWeights mu w0 input n) d

end WienerFilter

namespace MorphologicalFilter

/-- In-bounds test of element position `t` at centre `i` (the `Nat` form of
`0 ≤ i − half + t < N`). -/
abbrev inb (sz N i t : Nat) : Prop := sz / 2 ≤ i + t ∧ i + t - sz / 2 < N

/-- The window relation of a flat element of odd size: `|i − j| ≤ half`,
clipped to the signal. -/
def inWin (sz N i j : Nat) : Prop := j < N ∧ i ≤ j + sz / 2 ∧ j ≤ i + sz / 2

end MorphologicalFilter

section Helpers

/-- `getD` through `(List.range n).map f`. -/
theorem mapRange_getD (f : Nat → ℚ) {n i : Nat} (d : ℚ) (h : i < n) :
    (((List.range n).map f).getD i d) = f i := by
  rw [List.getD_eq_getElem?_getD, List.getElem?_map, List.getElem?_range h]
  rfl

theorem mapRange_length (f : Nat → ℚ) (n : Nat) : ((List.range n).map f).length = n := by
  simp

end Helpers

namespace SavgolFilter

theorem natList_length (f : Nat → ℚ) (k : Nat) : (natList f k).length = k := by
  induction k with
  | zero => rfl
  | succ k ih => simp [natList, ih]

theorem natList_getD (f : Nat → ℚ) :
    ∀ k j, j < k → (natList f k).getD j 0 = f j := by
  intro k
  induction k with
  | zero => omega
  | succ k ih =>
    intro j hj
    rw [natList]
    rcases Nat.lt_or_ge j k with h | h
    · rw [List.getD_append _ _ _ _ (by rw [natList_length]; exact h)]
      exact ih j h
    · have hjk : j = k := by omega
      subst hjk
      rw [List.getD_eq_getElem?_getD, List.getElem?_append_right (by rw [natList_length])]
      simp [natList_length]

theorem sumFrom_eq (f : Nat → ℚ) :
    ∀ len lo, sumFrom f lo len = ∑ j in Finset.Ico lo (lo + len), f j := by
  intro len
  induction len with
  | zero => intro lo; simp [sumFrom]
  | succ len ih =>
    intro lo
    rw [sumFrom, ih (lo + 1),
      Finset.sum_eq_sum_Ico_succ_bot (by omega : lo < lo + (len + 1))]
    have harg : lo + 1 + len = lo + (len + 1) := by omega
    rw [harg]

theorem pivotLoop_cases (M : Nat → Nat → ℚ) (col : Nat) :
    ∀ len best k, pivotLoop M col best k len = best ∨
      (k ≤ pivotLoop M col best k len ∧ pivotLoop M col best k len < k + len) := by
  intro len
  induction len with
  | zero => intro best k; left; rfl
  | succ len ih =>
    intro best k
    rw [pivotLoop]
    rcases ih (if |M k col| > |M best col| then k else best) (k + 1) with h | h
    · rw [h]
      split
      · right; omega
      · left; rfl
    · right; omega

/-- The pivot row chosen at column `i` lies in `[i, n)`. -/
theorem pivot_bounds (M : Nat → Nat → ℚ) {i n : Nat} (hin : i < n) :
    i ≤ pivotLoop M i i (i + 1) (n - (i + 1)) ∧
      pivotLoop M i i (i + 1) (n - (i + 1)) < n := by
  rcases pivotLoop_cases M i (n - (i + 1)) i (i + 1) with h | h
  · rw [h]; omega
  · omega

theorem forwardAux_frozen (n : Nat) :
    ∀ fuel i M rhs U c, forwardAux n fuel i M rhs = .ok (U, c) →
      ∀ k, k < i → (∀ j, U k j = M k j) ∧ c k = rhs k := by
  intro fuel
  induction fuel with
  | zero =>
    intro i M rhs U c h k hk
    rw [forwardAux] at h
    injection h with h
    injection h with h1 h2
    subst h1; subst h2
    exact ⟨fun _ => rfl, rfl⟩
  | succ fuel ih =>
    intro i M rhs U c h k hk
    rw [forwardAux] at h
    split at h
    · exact absurd h (by simp)
    · have hp : i ≤ pivotLoop M i i (i + 1) (n - (i + 1)) := by
        rcases pivotLoop_cases M i (n - (i + 1)) i (i + 1) with hc | hc
        · rw [hc]
        · omega
      obtain ⟨hU, hc⟩ := ih (i + 1) _ _ U c h k (by omega)
      constructor
      · intro j
        rw [hU j]
        show elimM _ i n k j = M k j
        rw [elimM]
        rw [if_neg (by omega)]
        show swapRows M i _ k j = M k j
        rw [swapRows, if_neg (by omega), if_neg (by omega)]
      · rw [hc]
        show elimV _ _ i n k = rhs k
        rw [elimV, if_neg (by omega)]
        show swapVec rhs i _ k = rhs k
        rw [swapVec, if_neg (by omega), if_neg (by omega)]

theorem forwardAux_diag (n : Nat) :
    ∀ fuel i M rhs U c, i + fuel = n → forwardAux n fuel i M rhs = .ok (U, c) →
      ∀ k, i ≤ k → k < n → U k k ≠ 0 := by
  intro fuel
  induction fuel with
  | zero => intro i M rhs U c hfn h k hik hkn; omega
  | succ fuel ih =>
    intro i M rhs U c hfn h k hik hkn
    rw [forwardAux] at h
    split at h
    · exact absurd h (by simp)
    · rcases Nat.lt_or_ge k (i + 1) with hki | hki
      · have hk_eq : k = i := by omega
        subst hk_eq
        obtain ⟨hU, -⟩ := forwardAux_frozen n fuel (k + 1) _ _ U c h k (by omega)
        rw [hU k]
        show elimM _ k n k k ≠ 0
        rw [elimM, if_neg (by omega)]
        rename_i hguard
        intro h0
        rw [h0] at hguard
        simp at hguard
      · exact ih (i + 1) _ _ U c (by omega) h k hki hkn

/-- Undo one elimination step: a solution of the partial systems of the
eliminated matrix solves the partial systems of the pre-elimination matrix. -/
theorem elim_transfer (M1 : Nat → Nat → ℚ) (r1 : Nat → ℚ) (i n : Nat) (hin : i < n)
    (hM : M1 i i ≠ 0) (x : Nat → ℚ)
    (h : ∀ k, k < n →
      ∑ j in Finset.Ico (min k (i + 1)) n, elimM M1 i n k j * x j = elimV M1 r1 i n k) :
    ∀ k, k < n → ∑ j in Finset.Ico (min k i) n, M1 k j * x j = r1 k := by
  intro k hk
  rcases Nat.lt_or_ge i k with hik | hik
  · -- an eliminated row strictly below the pivot row
    have hrow_i : M1 i i * x i + ∑ j in Finset.Ico (i + 1) n, M1 i j * x j = r1 i := by
      have hi := h i (by omega)
      have hmin : i ⊓ (i + 1) = i := by omega
      rw [hmin] at hi
      have hM2 : ∑ j in Finset.Ico i n, elimM M1 i n i j * x j
          = ∑ j in Finset.Ico i n, M1 i j * x j :=
        Finset.sum_congr rfl (fun j _ => by rw [elimM, if_neg (by omega)])
      have hV2 : elimV M1 r1 i n i = r1 i := by rw [elimV, if_neg (by omega)]
      rw [hM2, hV2] at hi
      rw [Finset.sum_eq_sum_Ico_succ_bot (by omega : i < n)] at hi
      exact hi
    have hminq : k ⊓ i = i := by omega
    have hminq2 : k ⊓ (i + 1) = i + 1 := by omega
    have hk' := h k hk
    rw [hminq2] at hk'
    have hexp : ∑ j in Finset.Ico (i + 1) n, elimM M1 i n k j * x j
        = ∑ j in Finset.Ico (i + 1) n, M1 k j * x j
          - M1 k i / M1 i i * ∑ j in Finset.Ico (i + 1) n, M1 i j * x j := by
      rw [Finset.mul_sum, ← Finset.sum_sub_distrib]
      refine Finset.sum_congr rfl (fun j hj => ?_)
      have hj1 : i + 1 ≤ j := (Finset.mem_Ico.mp hj).1
      have hj2 : j < n := (Finset.mem_Ico.mp hj).2
      rw [elimM, if_pos ⟨by omega, by omega, by omega, by omega⟩]
      ring
    have hV : elimV M1 r1 i n k = r1 k - M1 k i / M1 i i * r1 i := by
      rw [elimV, if_pos ⟨by omega, by omega⟩]
    rw [hexp, hV] at hk'
    rw [hminq, Finset.sum_eq_sum_Ico_succ_bot (by omega : i < n)]
    have hcancel : M1 k i / M1 i i * M1 i i = M1 k i := div_mul_cancel₀ _ hM
    linear_combination hk' + M1 k i / M1 i i * hrow_i - x i * hcancel
  · -- rows at or above the pivot are untouched by the elimination
    have hmin : k ⊓ (i + 1) = k ⊓ i := by omega
    have hk' := h k hk
    rw [hmin] at hk'
    have hM2 : ∑ j in Finset.Ico (k ⊓ i) n, elimM M1 i n k j * x j
        = ∑ j in Finset.Ico (k ⊓ i) n, M1 k j * x j :=
      Finset.sum_congr rfl (fun j _ => by rw [elimM, if_neg (by omega)])
    have hV2 : elimV M1 r1 i n k = r1 k := by rw [elimV, if_neg (by omega)]
    rw [hM2, hV2] at hk'
    exact hk'

/-- Undo the pivot row swap: the swapped system's partial equations are a
permutation of the original ones. -/
theorem swap_transfer (M : Nat → Nat → ℚ) (rhs : Nat → ℚ) (i p n : Nat)
    (hip : i ≤ p) (hpn : p < n) (x : Nat → ℚ)
    (h : ∀ k, k < n →
      ∑ j in Finset.Ico (min k i) n, swapRows M i p k j * x j = swapVec rhs i p k) :
    ∀ k, k < n → ∑ j in Finset.Ico (min k i) n, M k j * x j = rhs k := by
  intro k hk
  rcases eq_or_ne p i with hpi | hpi
  · -- trivial swap
    have hk' := h k hk
    have hM2 : ∑ j in Finset.Ico (k ⊓ i) n, swapRows M i p k j * x j
        = ∑ j in Finset.Ico (k ⊓ i) n, M k j * x j :=
      Finset.sum_congr rfl (fun j _ => by
        subst hpi
        rw [swapRows]
        rcases eq_or_ne k p with hkp | hkp
        · rw [if_pos hkp, hkp]
        · rw [if_neg hkp, if_neg hkp])
    have hV2 : swapVec rhs i p k = rhs k := by
      subst hpi
      rw [swapVec]
      rcases eq_or_ne k p with hkp | hkp
      · rw [if_pos hkp, hkp]
      · rw [if_neg hkp, if_neg hkp]
    rw [hM2, hV2] at hk'
    exact hk'
  · rcases eq_or_ne k i with hki | hki
    · -- row i of the original system is row p of the swapped one
      subst hki
      have hp' := h p hpn
      have hmin1 : p ⊓ k = k := by omega
      have hmin2 : k ⊓ k = k := by omega
      rw [hmin1] at hp'
      rw [hmin2]
      have hM2 : ∑ j in Finset.Ico k n, swapRows M k p p j * x j
          = ∑ j in Finset.Ico k n, M k j * x j :=
        Finset.sum_congr rfl (fun j _ => by
          rw [swapRows, if_neg (by omega), if_pos rfl])
      have hV2 : swapVec rhs k p p = rhs k := by
        rw [swapVec, if_neg (by omega), if_pos rfl]
      rw [hM2, hV2] at hp'
      exact hp'
    · rcases eq_or_ne k p with hkp | hkp
      · -- row p of the original system is row i of the swapped one
        subst hkp
        have hi' := h i (by omega)
        have hmin1 : i ⊓ i = i := by omega
        have hmin2 : k ⊓ i = i := by omega
        rw [hmin1] at hi'
        rw [hmin2]
        have hM2 : ∑ j in Finset.Ico i n, swapRows M i k i j * x j
            = ∑ j in Finset.Ico i n, M k j * x j :=
          Finset.sum_congr rfl (fun j _ => by rw [swapRows, if_pos rfl])
        have hV2 : swapVec rhs i k i = rhs k := by rw [swapVec, if_pos rfl]
        rw [hM2, hV2] at hi'
        exact hi'
      · -- any other row is untouched
        have hk' := h k hk
        have hM2 : ∑ j in Finset.Ico (k ⊓ i) n, swapRows M i p k j * x j
            = ∑ j in Finset.Ico (k ⊓ i) n, M k j * x j :=
          Finset.sum_congr rfl (fun j _ => by rw [swapRows, if_neg hki, if_neg hkp])
        have hV2 : swapVec rhs i p k = rhs k := by rw [swapVec, if_neg hki, if_neg hkp]
        rw [hM2, hV2] at hk'
        exact hk'

/-- A solution of all the diagonal-truncated rows of the eliminated system
solves the corresponding partial systems of the original matrix; at `i = 0`
these are the full original equations. -/
theorem forwardAux_solves (n : Nat) :
    ∀ fuel i M rhs U c, i + fuel = n → forwardAux n fuel i M rhs = .ok (U, c) →
      ∀ x : Nat → ℚ, (∀ k, k < n → ∑ j in Finset.Ico k n, U k j * x j = c k) →
      ∀ k, k < n → ∑ j in Finset.Ico (min k i) n, M k j * x j = rhs k := by
  intro fuel
  induction fuel with
  | zero =>
    intro i M rhs U c hfn h x hx k hk
    rw [forwardAux] at h
    injection h with h
    injection h with h1 h2
    subst h1; subst h2
    have hmin : k ⊓ i = k := by omega
    rw [hmin]
    exact hx k hk
  | succ fuel ih =>
    intro i M rhs U c hfn h x hx k hk
    have hin : i < n := by omega
    rw [forwardAux] at h
    split at h
    · exact absurd h (by simp)
    · rename_i hguard
      obtain ⟨hpl, hpr⟩ := pivot_bounds M hin
      have hM1 : swapRows M i (pivotLoop M i i (i + 1) (n - (i + 1))) i i ≠ 0 := by
        intro h0
        rw [h0] at hguard
        simp at hguard
      have hrec := ih (i + 1) _ _ U c (by omega) h x hx
      exact swap_transfer M rhs i _ n hpl hpr x
        (elim_transfer _ _ i n hin hM1 x hrec) k hk

/-- Back substitution satisfies every diagonal-truncated row whose unknown
it has already solved. -/
theorem backSolve_spec (U : Nat → Nat → ℚ) (c : Nat → ℚ) (n : Nat)
    (hd : ∀ k, k < n → U k k ≠ 0) :
    ∀ kk, kk ≤ n → ∀ j, n - kk ≤ j → j < n →
      ∑ j' in Finset.Ico j n, U j j' * backSolveFun U c n kk j' = c j := by
  intro kk
  induction kk with
  | zero => intro _ j hj1 hj2; omega
  | succ kk ih =>
    intro hkk j hj1 hj2
    rcases Nat.lt_or_ge j (n - kk) with hj | hj
    · -- j is exactly the unknown solved at this step
      have hji : j = n - (kk + 1) := by omega
      have hjn : j + 1 ≤ n := by omega
      rw [Finset.sum_eq_sum_Ico_succ_bot (by omega : j < n)]
      have hsame : ∀ j' ∈ Finset.Ico (j + 1) n,
          U j j' * backSolveFun U c n (kk + 1) j' = U j j' * backSolveFun U c n kk j' := by
        intro j' hj'
        have := Finset.mem_Ico.mp hj'
        simp only [backSolveFun]
        rw [if_neg (by omega)]
      rw [Finset.sum_congr rfl hsame]
      have hself : backSolveFun U c n (kk + 1) j
          = (c j - sumFrom (fun j' => U j j' * backSolveFun U c n kk j') (j + 1)
              (n - (j + 1))) / U j j := by
        simp only [backSolveFun]
        rw [if_pos hji, ← hji]
      rw [hself, sumFrom_eq]
      have harg : j + 1 + (n - (j + 1)) = n := by omega
      rw [harg]
      rw [mul_div_cancel₀ _ (hd j hj2)]
      ring
    · -- j was already solved by an earlier (deeper) step
      have hsame : ∀ j' ∈ Finset.Ico j n,
          U j j' * backSolveFun U c n (kk + 1) j' = U j j' * backSolveFun U c n kk j' := by
        intro j' hj'
        have := Finset.mem_Ico.mp hj'
        simp only [backSolveFun]
        rw [if_neg (by omega)]
      rw [Finset.sum_congr rfl hsame]
      exact ih (by omega) j hj hj2

/-- Correctness of `gaussElimination`: a returned vector really solves the
input linear system. -/
theorem gauss_solves (n : Nat) (M : Nat → Nat → ℚ) (rhs : Nat → ℚ) (sol : List ℚ)
    (h : gaussElimination n M rhs = .ok sol) :
    sol.length = n ∧
      ∀ k, k < n → ∑ j in Finset.Ico 0 n, M k j * sol.getD j 0 = rhs k := by
  rw [gaussElimination] at h
  cases hfw : forwardAux n n 0 M rhs with
  | error e => rw [hfw] at h; exact absurd h (by simp [Except.map])
  | ok s =>
    rw [hfw] at h
    simp only [Except.map] at h
    injection h with h
    obtain ⟨U, c⟩ := s
    have hd : ∀ k, k < n → U k k ≠ 0 :=
      fun k hk => forwardAux_diag n n 0 M rhs U c (by omega) hfw k (by omega) hk
    have hx : ∀ k, k < n → ∑ j in Finset.Ico k n, U k j * backSolveFun U c n n j = c k := by
      intro k hk
      exact backSolve_spec U c n hd n (le_refl n) k (by omega) hk
    constructor
    · rw [← h, natList_length]
    · intro k hk
      have hsol : ∀ j ∈ Finset.Ico 0 n, M k j * sol.getD j 0
          = M k j * backSolveFun U c n n j := by
        intro j hj
        have hjn := (Finset.mem_Ico.mp hj).2
        rw [← h, natList_getD _ _ _ hjn]
      rw [Finset.sum_congr rfl hsol]
      have := forwardAux_solves n n 0 M rhs U c (by omega) hfw
        (backSolveFun U c n n) hx k hk
      rwa [Nat.min_zero, ← Nat.bot_eq_zero] at this

/-- Unpack a successful construction. -/
theorem mk_ok (W K : Nat) (st : State) (h : mk W K = .ok st) :
    W % 2 = 1 ∧ K < W ∧ st.windowSize = W ∧ st.polyOrder = K ∧
      calculateCoefficients W K = .ok st.coefficients := by
  rw [mk] at h
  split at h
  · exact absurd h (by simp)
  · split at h
    · exact absurd h (by simp)
    · rename_i hc1 hc2
      cases hcc : calculateCoefficients W K with
      | error e => rw [hcc] at h; exact absurd h (by simp [Except.map])
      | ok coeffs =>
        rw [hcc] at h
        simp only [Except.map] at h
        injection h with h
        subst h
        exact ⟨by omega, by omega, rfl, rfl, rfl⟩

/-- The defining property of the Savitzky-Golay taps: their discrete moments
reproduce the delta at order zero, for every order up to `K`. -/
theorem coeffs_moment (W K : Nat) (coeffs : List ℚ) (hodd : W % 2 = 1)
    (h : calculateCoefficients W K = .ok coeffs) :
    ∀ d, d ≤ K →
      ∑ t in Finset.Ico 0 W, coeffs.getD t 0 * (((t : ℤ) - ((W / 2 : Nat) : ℤ) : ℤ) : ℚ) ^ d
        = if d = 0 then 1 else 0 := by
  intro d hd
  rw [calculateCoefficients] at h
  cases hg : gaussElimination (K + 1) (normalMatrix W) normalRhs with
  | error e => rw [hg] at h; exact absurd h (by simp [Except.map])
  | ok a =>
    rw [hg] at h
    simp only [Except.map] at h
    injection h with h
    obtain ⟨-, hsys⟩ := gauss_solves (K + 1) (normalMatrix W) normalRhs a hg
    -- expand each tap as its polynomial-basis sum
    have htap : ∀ t ∈ Finset.Ico 0 W,
        coeffs.getD t 0 * (((t : ℤ) - ((W / 2 : Nat) : ℤ) : ℤ) : ℚ) ^ d
          = ∑ j in Finset.Ico 0 (K + 1),
              a.getD j 0 * (((t : ℤ) - ((W / 2 : Nat) : ℤ) : ℤ) : ℚ) ^ j
                * (((t : ℤ) - ((W / 2 : Nat) : ℤ) : ℤ) : ℚ) ^ d := by
      intro t ht
      have htW := (Finset.mem_Ico.mp ht).2
      rw [← h, natList_getD _ _ _ htW, sumFrom_eq, Nat.zero_add, Finset.sum_mul]
    rw [Finset.sum_congr rfl htap, Finset.sum_comm]
    -- each inner sum is a row entry of the normal system
    have hrow : ∀ j ∈ Finset.Ico 0 (K + 1),
        ∑ t in Finset.Ico 0 W,
            a.getD j 0 * (((t : ℤ) - ((W / 2 : Nat) : ℤ) : ℤ) : ℚ) ^ j
              * (((t : ℤ) - ((W / 2 : Nat) : ℤ) : ℤ) : ℚ) ^ d
          = normalMatrix W d j * a.getD j 0 := by
      intro j _
      simp only [normalMatrix]
      rw [sumFrom_eq, Nat.zero_add]
      have hW : 2 * (W / 2) + 1 = W := by omega
      rw [hW, Finset.sum_mul]
      refine Finset.sum_congr rfl (fun t _ => ?_)
      rw [pow_add]
      ring
    rw [Finset.sum_congr rfl hrow, hsys d (by omega)]
    rw [normalRhs]

/-- A requested index that is already in range is read directly. -/
theorem getReflected_inRange (input : Signal) (index : ℤ) (h0 : 0 ≤ index)
    (hN : index < (input.length : ℤ)) :
    getReflectedValue input index = input.getD index.toNat 0 := by
  rw [getReflectedValue, reflectIndex, if_neg (by omega), if_neg (by omega)]

/-- Core of the Savitzky-Golay reproduction property, stated on `process`. -/
theorem reproduces_poly (W K : Nat) (st : State) (hmk : mk W K = .ok st)
    (input : Signal) (p : Polynomial ℚ) (hdeg : p.natDegree ≤ K)
    (hsig : ∀ m, m < input.length → input.getD m 0 = p.eval (m : ℚ))
    (i : Nat) (hl : W / 2 ≤ i) (hr : i + W / 2 < input.length) :
    (process st input).getD i 0 = input.getD i 0 := by
  obtain ⟨hodd, hKW, hW, hK, hcc⟩ := mk_ok W K st hmk
  have hWodd : 2 * (W / 2) + 1 = W := by omega
  have hiN : i < input.length := by omega
  have hne : input ≠ [] := by
    intro h0
    rw [h0] at hiN
    simp at hiN
  rw [process, if_neg hne, mapRange_getD _ _ hiN, applyFilter, hW, sumFrom_eq, Nat.zero_add]
  set Q := p.comp (Polynomial.X + Polynomial.C (i : ℚ)) with hQ
  have hQdeg : Q.natDegree ≤ K := by
    rw [hQ, Polynomial.natDegree_comp, Polynomial.natDegree_X_add_C, mul_one]
    exact hdeg
  have hQeval : ∀ z : ℚ, Q.eval z = p.eval (z + i) := by
    intro z
    rw [hQ, Polynomial.eval_comp]
    simp
  have hterm : ∀ t ∈ Finset.Ico 0 W,
      st.coefficients.getD t 0 * getReflectedValue input ((i : ℤ) - ((W / 2 : Nat) : ℤ) + t)
        = st.coefficients.getD t 0 *
            ∑ d in Finset.range (K + 1),
              Q.coeff d * (((t : ℤ) - ((W / 2 : Nat) : ℤ) : ℤ) : ℚ) ^ d := by
    intro t ht
    have htW := (Finset.mem_Ico.mp ht).2
    have hidx0 : (0 : ℤ) ≤ (i : ℤ) - ((W / 2 : Nat) : ℤ) + t := by omega
    have hidxN : (i : ℤ) - ((W / 2 : Nat) : ℤ) + t < (input.length : ℤ) := by omega
    rw [getReflected_inRange input _ hidx0 hidxN]
    have hm : ((i : ℤ) - ((W / 2 : Nat) : ℤ) + t).toNat < input.length := by omega
    rw [hsig _ hm]
    have h1 : ((((i : ℤ) - ((W / 2 : Nat) : ℤ) + t).toNat : ℤ)) =
        (i : ℤ) - ((W / 2 : Nat) : ℤ) + t := Int.toNat_of_nonneg hidx0
    have hcast : (((((i : ℤ) - ((W / 2 : Nat) : ℤ) + t).toNat) : ℚ))
        = (((t : ℤ) - ((W / 2 : Nat) : ℤ) : ℤ) : ℚ) + (i : ℚ) := by
      rw [← Int.cast_natCast (R := ℚ), h1]
      push_cast
      ring
    rw [hcast, ← hQeval]
    rw [Polynomial.eval_eq_sum_range' (lt_of_le_of_lt hQdeg (Nat.lt_succ_self K))]
  rw [Finset.sum_congr rfl hterm]
  have hswap : ∑ t in Finset.Ico 0 W, st.coefficients.getD t 0 *
      ∑ d in Finset.range (K + 1),
        Q.coeff d * (((t : ℤ) - ((W / 2 : Nat) : ℤ) : ℤ) : ℚ) ^ d
      = ∑ d in Finset.range (K + 1), Q.coeff d *
          ∑ t in Finset.Ico 0 W,
            st.coefficients.getD t 0 * (((t : ℤ) - ((W / 2 : Nat) : ℤ) : ℤ) : ℚ) ^ d := by
    calc ∑ t in Finset.Ico 0 W, st.coefficients.getD t 0 *
        ∑ d in Finset.range (K + 1),
          Q.coeff d * (((t : ℤ) - ((W / 2 : Nat) : ℤ) : ℤ) : ℚ) ^ d
        = ∑ t in Finset.Ico 0 W, ∑ d in Finset.range (K + 1),
            st.coefficients.getD t 0 *
              (Q.coeff d * (((t : ℤ) - ((W / 2 : Nat) : ℤ) : ℤ) : ℚ) ^ d) := by
          exact Finset.sum_congr rfl (fun t _ => Finset.mul_sum _ _ _)
      _ = ∑ d in Finset.range (K + 1), ∑ t in Finset.Ico 0 W,
            st.coefficients.getD t 0 *
              (Q.coeff d * (((t : ℤ) - ((W / 2 : Nat) : ℤ) : ℤ) : ℚ) ^ d) :=
          Finset.sum_comm
      _ = ∑ d in Finset.range (K + 1), Q.coeff d *
            ∑ t in Finset.Ico 0 W,
              st.coefficients.getD t 0 * (((t : ℤ) - ((W / 2 : Nat) : ℤ) : ℤ) : ℚ) ^ d := by
          refine Finset.sum_congr rfl (fun d _ => ?_)
          rw [Finset.mul_sum]
          exact Finset.sum_congr rfl (fun t _ => by ring)
  rw [hswap]
  have hmom := coeffs_moment W K st.coefficients hodd hcc
  have hfin : ∑ d in Finset.range (K + 1), Q.coeff d *
      ∑ t in Finset.Ico 0 W,
        st.coefficients.getD t 0 * (((t : ℤ) - ((W / 2 : Nat) : ℤ) : ℤ) : ℚ) ^ d
      = ∑ d in Finset.range (K + 1), (if d = 0 then Q.coeff d else 0) := by
    refine Finset.sum_congr rfl (fun d hdm => ?_)
    have hdK : d ≤ K := by
      have := Finset.mem_range.mp hdm
      omega
    rw [hmom d hdK]
    by_cases hd0 : d = 0
    · rw [if_pos hd0, if_pos hd0, mul_one]
    · rw [if_neg hd0, if_neg hd0, mul_zero]
  rw [hfin, Finset.sum_ite_eq' (Finset.range (K + 1)) 0 (fun d => Q.coeff d),
    if_pos (Finset.mem_range.mpr (Nat.succ_pos K))]
  rw [Polynomial.coeff_zero_eq_eval_zero, hQeval 0, zero_add, hsig i hiN]

/-- Amended bound: when the signal is longer than the half-window, every
index the filter reads is mapped into range by the reflection. -/
theorem reflect_bounds (W N : Nat) (hN : W / 2 < N) (center : Nat)
    (hc : center < N) (t : Nat) (_ht : t < W) :
    0 ≤ reflectIndex N ((center : ℤ) - ((W / 2 : Nat) : ℤ) + t) ∧
      reflectIndex N ((center : ℤ) - ((W / 2 : Nat) : ℤ) + t) < (N : ℤ) := by
  rw [reflectIndex]
  split_ifs <;> omega

end SavgolFilter

namespace WienerFilter

/-- The source's target equals the amended claim's target. -/
theorem lmsDesired_eq_amended (input : Signal) (n : Nat) :
    lmsDesired input n = amendedTarget input n := by
  rw [lmsDesired, amendedTarget]
  rcases eq_or_ne n 0 with h0 | h0
  · rw [if_pos h0, if_pos h0, h0]
  · rw [if_neg h0, if_neg h0]
    rcases Nat.lt_or_ge n (input.length - 1) with hlt | hge
    · rw [if_pos (by omega), if_pos (by omega)]
      ring
    · rw [if_neg (by omega), if_neg (by omega)]
      ring

/-- Pushing the next raw sample into the delay buffer steps the closed-form
delay vector forward. -/
theorem shiftDelay_delayVec (P : Nat) (hP : 0 < P) (input : Signal) (k : Nat) :
    shiftDelay (if k = 0 then List.replicate P 0 else delayVec P input (k - 1))
        (input.getD k 0) = delayVec P input k := by
  rcases eq_or_ne k 0 with hk | hk
  · subst hk
    rw [if_pos rfl, shiftDelay, delayVec]
    apply List.ext_getElem
    · simp [List.length_dropLast]
      omega
    · intro i h1 h2
      rcases Nat.eq_zero_or_pos i with hi | hi
      · subst hi
        simp
      · obtain ⟨i', rfl⟩ : ∃ i', i = i' + 1 := ⟨i - 1, by omega⟩
        rw [List.getElem_cons_succ, List.getElem_dropLast, List.getElem_replicate,
          List.getElem_map, List.getElem_range]
        rw [if_neg (by omega)]
  · rw [if_neg hk, shiftDelay, delayVec, delayVec]
    apply List.ext_getElem
    · simp [List.length_dropLast]
      omega
    · intro i h1 h2
      rcases Nat.eq_zero_or_pos i with hi | hi
      · subst hi
        rw [List.getElem_cons_zero, List.getElem_map, List.getElem_range, if_pos (by omega)]
        rw [Nat.sub_zero]
      · obtain ⟨i', rfl⟩ : ∃ i', i = i' + 1 := ⟨i - 1, by omega⟩
        rw [List.getElem_cons_succ, List.getElem_dropLast, List.getElem_map,
          List.getElem_map, List.getElem_range, List.getElem_range]
        rcases Nat.lt_or_ge (i' + 1) (k + 1) with hik | hik
        · rw [if_pos (by omega), if_pos (by omega)]
          have : k - (i' + 1) = k - 1 - i' := by omega
          rw [this]
        · rw [if_neg (by omega), if_neg (by omega)]

/-- The loop invariant tying `lmsRun` to the closed-form recurrence of the
amended claim: after `k` samples the weights are `specWeights k`, the delay
buffer is `delayVec (k-1)`, and output `n` is the pre-update dot product
`specWeights n · delayVec n`. -/
theorem lmsRun_inv (mu : ℚ) (w0 : List ℚ) (hP : w0 ≠ []) (input : Signal) :
    ∀ k, (lmsRun mu w0 input k).1 = specWeights mu w0 input k ∧
      (lmsRun mu w0 input k).2.1 =
        (if k = 0 then List.replicate w0.length 0 else delayVec w0.length input (k - 1)) ∧
      (lmsRun mu w0 input k).2.2.length = k ∧
      ∀ n, n < k → (lmsRun mu w0 input k).2.2.getD n 0 =
        dot (specWeights mu w0 input n) (delayVec w0.length input n) := by
  have hP' : 0 < w0.length := List.length_pos.mpr hP
  intro k
  induction k with
  | zero =>
    refine ⟨rfl, by rw [if_pos rfl]; rfl, rfl, ?_⟩
    intro n hn
    omega
  | succ k ih =>
    obtain ⟨ihw, ihd, ihl, iho⟩ := ih
    have hdelay : shiftDelay (lmsRun mu w0 input k).2.1 (input.getD k 0) =
        delayVec w0.length input k := by
      rw [ihd]
      exact shiftDelay_delayVec w0.length hP' input k
    constructor
    · show (lmsStep mu input k (lmsRun mu w0 input k).1 (lmsRun mu w0 input k).2.1).1 =
        specWeights mu w0 input (k + 1)
      rw [lmsStep]
      simp only []
      rw [hdelay, ihw, lmsDesired_eq_amended]
      rfl
    constructor
    · show (lmsStep mu input k (lmsRun mu w0 input k).1 (lmsRun mu w0 input k).2.1).2.1 =
        if k + 1 = 0 then List.replicate w0.length 0 else delayVec w0.length input (k + 1 - 1)
      rw [if_neg (Nat.succ_ne_zero k)]
      exact hdelay
    constructor
    · show ((lmsRun mu w0 input k).2.2 ++ [_]).length = k + 1
      rw [List.length_append, ihl]
      rfl
    · intro n hn
      show ((lmsRun mu w0 input k).2.2 ++
        [(lmsStep mu input k (lmsRun mu w0 input k).1 (lmsRun mu w0 input k).2.1).2.2]).getD n 0 = _
      rcases Nat.lt_or_ge n k with hnk | hnk
      · rw [List.getD_append _ _ _ _ (by rw [ihl]; exact hnk)]
        exact iho n hnk
      · have hn_eq : n = k := by omega
        subst hn_eq
        rw [List.getD_eq_getElem?_getD, List.getElem?_append_right (by rw [ihl])]
        rw [ihl, Nat.sub_self]
        show (some ((lmsStep mu input n (lmsRun mu w0 input n).1 (lmsRun mu w0 input n).2.1).2.2)).getD 0 = _
        rw [lmsStep]
        simp only [Option.getD_some]
        rw [hdelay, ihw]

/-- The amended C3 refinement, stated on `processLMS`. -/
theorem processLMS_spec (mu : ℚ) (w0 : List ℚ) (hP : w0 ≠ []) (input : Signal)
    (n : Nat) (hn : n < input.length) :
    (processLMS mu w0 input).1.getD n 0 =
      dot (specWeights mu w0 input n) (delayVec w0.length input n) := by
  obtain ⟨-, -, -, ho⟩ := lmsRun_inv mu w0 hP input input.length
  exact ho n hn

/-- `processLMS` emits one output sample per input sample. -/
theorem lmsRun_length (mu : ℚ) (w0 : List ℚ) (input : Signal) :
    ∀ k, (lmsRun mu w0 input k).2.2.length = k := by
  intro k
  induction k with
  | zero => rfl
  | succ k ih =>
    show ((lmsRun mu w0 input k).2.2 ++ [_]).length = k + 1
    rw [List.length_append, ih]
    rfl

end WienerFilter

namespace MorphologicalFilter

/-- Every entry of a flat element reads as zero. -/
theorem flat_getD (sz t : Nat) : (createFlatElement sz).getD t 0 = 0 := by
  rw [createFlatElement, List.getD_eq_getElem?_getD, List.getElem?_replicate]
  split <;> rfl

/-- The length of a flat element is its requested size. -/
theorem flat_length (sz : Nat) : (createFlatElement sz).length = sz :=
  List.length_replicate sz 0

theorem inWin_self (sz N i : Nat) (h : i < N) : inWin sz N i i :=
  ⟨h, by omega, by omega⟩

theorem inWin_symm (sz N i j : Nat) (hi : i < N) (h : inWin sz N i j) :
    inWin sz N j i :=
  ⟨hi, h.2.2.trans (by omega), by have := h.2.1; omega⟩

/-- Greatest-lower-bound characterisation of the erosion accumulator over a
flat element. -/
theorem eroFold_glb (sz : Nat) (x : Signal) (i : Nat) :
    ∀ k, (eroFold (createFlatElement sz) x i k = none ∧ ∀ t, t < k → ¬inb sz x.length i t) ∨
      (∃ v, eroFold (createFlatElement sz) x i k = some v ∧
        (∃ t, t < k ∧ inb sz x.length i t ∧ v = x.getD (i + t - sz / 2) 0) ∧
        (∀ t, t < k → inb sz x.length i t → v ≤ x.getD (i + t - sz / 2) 0)) := by
  intro k
  induction k with
  | zero => exact .inl ⟨rfl, fun t ht => by omega⟩
  | succ k ih =>
    have hstep : eroFold (createFlatElement sz) x i (k + 1) =
        if inb sz x.length i k then
          some (match eroFold (createFlatElement sz) x i k with
            | none => x.getD (i + k - sz / 2) 0
            | some a => min a (x.getD (i + k - sz / 2) 0))
        else eroFold (createFlatElement sz) x i k := by
      rw [eroFold, flat_getD]
      simp only [flat_length, sub_zero]
    rcases ih with ⟨hnone, hni⟩ | ⟨v, hsome, ⟨t0, ht0k, ht0b, ht0v⟩, hle⟩
    · by_cases hk : inb sz x.length i k
      · refine .inr ⟨x.getD (i + k - sz / 2) 0, ?_, ⟨k, by omega, hk, rfl⟩, ?_⟩
        · rw [hstep, if_pos hk, hnone]
        · intro t ht hb
          rcases Nat.lt_or_ge t k with htk | htk
          · exact absurd hb (hni t htk)
          · have : t = k := by omega
            subst this
            exact le_refl _
      · refine .inl ⟨?_, ?_⟩
        · rw [hstep, if_neg hk, hnone]
        · intro t ht
          rcases Nat.lt_or_ge t k with htk | htk
          · exact hni t htk
          · have : t = k := by omega
            subst this
            exact hk
    · by_cases hk : inb sz x.length i k
      · refine .inr ⟨min v (x.getD (i + k - sz / 2) 0), ?_, ?_, ?_⟩
        · rw [hstep, if_pos hk, hsome]
        · rcases le_total v (x.getD (i + k - sz / 2) 0) with hv | hv
          · exact ⟨t0, by omega, ht0b, by rw [min_eq_left hv, ht0v]⟩
          · exact ⟨k, by omega, hk, by rw [min_eq_right hv]⟩
        · intro t ht hb
          rcases Nat.lt_or_ge t k with htk | htk
          · exact le_trans (min_le_left _ _) (hle t htk hb)
          · have : t = k := by omega
            subst this
            exact min_le_right _ _
      · refine .inr ⟨v, ?_, ⟨t0, by omega, ht0b, ht0v⟩, ?_⟩
        · rw [hstep, if_neg hk, hsome]
        · intro t ht hb
          rcases Nat.lt_or_ge t k with htk | htk
          · exact hle t htk hb
          · have : t = k := by omega
            subst this
            exact absurd hb hk

/-- Least-upper-bound characterisation of the dilation accumulator over a
flat element. -/
theorem dilFold_lub (sz : Nat) (x : Signal) (i : Nat) :
    ∀ k, (dilFold (createFlatElement sz) x i k = none ∧ ∀ t, t < k → ¬inb sz x.length i t) ∨
      (∃ v, dilFold (createFlatElement sz) x i k = some v ∧
        (∃ t, t < k ∧ inb sz x.length i t ∧ v = x.getD (i + t - sz / 2) 0) ∧
        (∀ t, t < k → inb sz x.length i t → x.getD (i + t - sz / 2) 0 ≤ v)) := by
  intro k
  induction k with
  | zero => exact .inl ⟨rfl, fun t ht => by omega⟩
  | succ k ih =>
    have hstep : dilFold (createFlatElement sz) x i (k + 1) =
        if inb sz x.length i k then
          some (match dilFold (createFlatElement sz) x i k with
            | none => x.getD (i + k - sz / 2) 0
            | some a => max a (x.getD (i + k - sz / 2) 0))
        else dilFold (createFlatElement sz) x i k := by
      rw [dilFold, flat_getD]
      simp only [flat_length, add_zero]
    rcases ih with ⟨hnone, hni⟩ | ⟨v, hsome, ⟨t0, ht0k, ht0b, ht0v⟩, hle⟩
    · by_cases hk : inb sz x.length i k
      · refine .inr ⟨x.getD (i + k - sz / 2) 0, ?_, ⟨k, by omega, hk, rfl⟩, ?_⟩
        · rw [hstep, if_pos hk, hnone]
        · intro t ht hb
          rcases Nat.lt_or_ge t k with htk | htk
          · exact absurd hb (hni t htk)
          · have : t = k := by omega
            subst this
            exact le_refl _
      · refine .inl ⟨?_, ?_⟩
        · rw [hstep, if_neg hk, hnone]
        · intro t ht
          rcases Nat.lt_or_ge t k with htk | htk
          · exact hni t htk
          · have : t = k := by omega
            subst this
            exact hk
    · by_cases hk : inb sz x.length i k
      · refine .inr ⟨max v (x.getD (i + k - sz / 2) 0), ?_, ?_, ?_⟩
        · rw [hstep, if_pos hk, hsome]
        · rcases le_total v (x.getD (i + k - sz / 2) 0) with hv | hv
          · exact ⟨k, by omega, hk, by rw [max_eq_right hv]⟩
          · exact ⟨t0, by omega, ht0b, by rw [max_eq_left hv, ht0v]⟩
        · intro t ht hb
          rcases Nat.lt_or_ge t k with htk | htk
          · exact le_trans (hle t htk hb) (le_max_left _ _)
          · have : t = k := by omega
            subst this
            exact le_max_right _ _
      · refine .inr ⟨v, ?_, ⟨t0, by omega, ht0b, ht0v⟩, ?_⟩
        · rw [hstep, if_neg hk, hsome]
        · intro t ht hb
          rcases Nat.lt_or_ge t k with htk | htk
          · exact hle t htk hb
          · have : t = k := by omega
            subst this
            exact absurd hb hk

/-- For a non-empty flat element the centre position is always in bounds, so
the fallback never fires and the erosion value is the window minimum. -/
theorem erosionAt_glb (sz : Nat) (hsz : 0 < sz) (x : Signal) (i : Nat)
    (hi : i < x.length) :
    (∃ t, t < sz ∧ inb sz x.length i t ∧
        erosionAt (createFlatElement sz) x i = x.getD (i + t - sz / 2) 0) ∧
      (∀ t, t < sz → inb sz x.length i t →
        erosionAt (createFlatElement sz) x i ≤ x.getD (i + t - sz / 2) 0) := by
  have hbc : inb sz x.length i (sz / 2) := by constructor <;> omega
  rcases eroFold_glb sz x i sz with ⟨-, hni⟩ | ⟨v, hsome, hmem, hle⟩
  · exact absurd hbc (hni (sz / 2) (by omega))
  · have hval : erosionAt (createFlatElement sz) x i = v := by
      rw [erosionAt, flat_length, hsome]
      rfl
    rw [hval]
    exact ⟨hmem, hle⟩

/-- Dual bound for dilation. -/
theorem dilationAt_lub (sz : Nat) (hsz : 0 < sz) (x : Signal) (i : Nat)
    (hi : i < x.length) :
    (∃ t, t < sz ∧ inb sz x.length i t ∧
        dilationAt (createFlatElement sz) x i = x.getD (i + t - sz / 2) 0) ∧
      (∀ t, t < sz → inb sz x.length i t →
        x.getD (i + t - sz / 2) 0 ≤ dilationAt (createFlatElement sz) x i) := by
  have hbc : inb sz x.length i (sz / 2) := by constructor <;> omega
  rcases dilFold_lub sz x i sz with ⟨-, hni⟩ | ⟨v, hsome, hmem, hle⟩
  · exact absurd hbc (hni (sz / 2) (by omega))
  · have hval : dilationAt (createFlatElement sz) x i = v := by
      rw [dilationAt, flat_length, hsome]
      rfl
    rw [hval]
    exact ⟨hmem, hle⟩

/-- Window membership in terms of indices, for odd flat elements. -/
theorem erosionAt_le (sz : Nat) (hodd : sz % 2 = 1) (x : Signal) (i : Nat)
    (hi : i < x.length) (j : Nat) (hj : inWin sz x.length i j) :
    erosionAt (createFlatElement sz) x i ≤ x.getD j 0 := by
  obtain ⟨hjN, hij, hji⟩ := hj
  have hle := (erosionAt_glb sz (by omega) x i hi).2
  have harg : i + (j + sz / 2 - i) - sz / 2 = j := by omega
  have := hle (j + sz / 2 - i) (by omega) (by constructor <;> omega)
  rwa [harg] at this

theorem erosionAt_mem (sz : Nat) (hodd : sz % 2 = 1) (x : Signal) (i : Nat)
    (hi : i < x.length) :
    ∃ j, inWin sz x.length i j ∧ erosionAt (createFlatElement sz) x i = x.getD j 0 := by
  obtain ⟨⟨t, htsz, htb, htv⟩, -⟩ := erosionAt_glb sz (by omega) x i hi
  exact ⟨i + t - sz / 2, ⟨htb.2, by omega, by omega⟩, htv⟩

theorem dilationAt_ge (sz : Nat) (hodd : sz % 2 = 1) (x : Signal) (i : Nat)
    (hi : i < x.length) (j : Nat) (hj : inWin sz x.length i j) :
    x.getD j 0 ≤ dilationAt (createFlatElement sz) x i := by
  obtain ⟨hjN, hij, hji⟩ := hj
  have hle := (dilationAt_lub sz (by omega) x i hi).2
  have harg : i + (j + sz / 2 - i) - sz / 2 = j := by omega
  have := hle (j + sz / 2 - i) (by omega) (by constructor <;> omega)
  rwa [harg] at this

theorem dilationAt_mem (sz : Nat) (hodd : sz % 2 = 1) (x : Signal) (i : Nat)
    (hi : i < x.length) :
    ∃ j, inWin sz x.length i j ∧ dilationAt (createFlatElement sz) x i = x.getD j 0 := by
  obtain ⟨⟨t, htsz, htb, htv⟩, -⟩ := dilationAt_lub sz (by omega) x i hi
  exact ⟨i + t - sz / 2, ⟨htb.2, by omega, by omega⟩, htv⟩

theorem erosion_length (elem : List ℚ) (x : Signal) : (erosion elem x).length = x.length := by
  simp [erosion]

theorem dilation_length (elem : List ℚ) (x : Signal) : (dilation elem x).length = x.length := by
  simp [dilation]

theorem erosion_getD (elem : List ℚ) (x : Signal) (i : Nat) (hi : i < x.length) :
    (erosion elem x).getD i 0 = erosionAt elem x i := by
  rw [erosion, mapRange_getD _ _ hi]

theorem dilation_getD (elem : List ℚ) (x : Signal) (i : Nat) (hi : i < x.length) :
    (dilation elem x).getD i 0 = dilationAt elem x i := by
  rw [dilation, mapRange_getD _ _ hi]

/-- Two signals агree when they have equal length and equal reads. -/
theorem ext_getD {x y : Signal} (hlen : x.length = y.length)
    (h : ∀ i, i < x.length → x.getD i 0 = y.getD i 0) : x = y := by
  apply List.ext_getElem hlen
  intro i h1 h2
  have hi := h i h1
  rw [List.getD_eq_getElem?_getD, List.getD_eq_getElem?_getD,
    List.getElem?_eq_getElem h1, List.getElem?_eq_getElem h2] at hi
  simpa using hi

theorem erosionAt_mono (sz : Nat) (hodd : sz % 2 = 1) (x y : Signal)
    (hlen : x.length = y.length) (hxy : ∀ j, j < x.length → x.getD j 0 ≤ y.getD j 0)
    (i : Nat) (hi : i < x.length) :
    erosionAt (createFlatElement sz) x i ≤ erosionAt (createFlatElement sz) y i := by
  obtain ⟨j, hjw, hjv⟩ := erosionAt_mem sz hodd y i (hlen ▸ hi)
  rw [hjv]
  have hjw' : inWin sz x.length i j := by rw [hlen]; exact hjw
  exact le_trans (erosionAt_le sz hodd x i hi j hjw') (hxy j hjw'.1)

theorem dilationAt_mono (sz : Nat) (hodd : sz % 2 = 1) (x y : Signal)
    (hlen : x.length = y.length) (hxy : ∀ j, j < x.length → x.getD j 0 ≤ y.getD j 0)
    (i : Nat) (hi : i < x.length) :
    dilationAt (createFlatElement sz) x i ≤ dilationAt (createFlatElement sz) y i := by
  obtain ⟨j, hjw, hjv⟩ := dilationAt_mem sz hodd x i hi
  rw [hjv]
  have hjy : j < y.length := by rw [← hlen]; exact hjw.1
  have hjw' : inWin sz y.length i j := by rw [← hlen]; exact hjw
  exact le_trans (hxy j hjw.1) (dilationAt_ge sz hodd y i (hlen ▸ hi) j hjw')

/-- Anti-extensivity of the opening (pointwise). -/
theorem opening_le_self (sz : Nat) (hodd : sz % 2 = 1) (x : Signal) (i : Nat)
    (hi : i < x.length) :
    (opening (createFlatElement sz) x).getD i 0 ≤ x.getD i 0 := by
  rw [opening]
  have hyl : (erosion (createFlatElement sz) x).length = x.length := erosion_length _ _
  rw [dilation_getD _ _ i (by rw [hyl]; exact hi)]
  obtain ⟨j, hjw, hjv⟩ := dilationAt_mem sz hodd (erosion (createFlatElement sz) x) i
    (by rw [hyl]; exact hi)
  rw [hjv]
  have hjx : j < x.length := by rw [← hyl]; exact hjw.1
  rw [erosion_getD _ _ j hjx]
  have hjw2 : inWin sz x.length i j := by rw [← hyl]; exact hjw
  exact erosionAt_le sz hodd x j hjx i (inWin_symm sz x.length i j hi hjw2)

/-- Extensivity of the closing composite (pointwise). -/
theorem le_erosion_dilation (sz : Nat) (hodd : sz % 2 = 1) (x : Signal) (i : Nat)
    (hi : i < x.length) :
    x.getD i 0 ≤ (erosion (createFlatElement sz) (dilation (createFlatElement sz) x)).getD i 0 := by
  have hzl : (dilation (createFlatElement sz) x).length = x.length := dilation_length _ _
  rw [erosion_getD _ _ i (by rw [hzl]; exact hi)]
  obtain ⟨j, hjw, hjv⟩ := erosionAt_mem sz hodd (dilation (createFlatElement sz) x) i
    (by rw [hzl]; exact hi)
  rw [hjv]
  have hjx : j < x.length := by rw [← hzl]; exact hjw.1
  rw [dilation_getD _ _ j hjx]
  have hjw2 : inWin sz x.length i j := by rw [← hzl]; exact hjw
  exact dilationAt_ge sz hodd x j hjx i (inWin_symm sz x.length i j hi hjw2)

/-- The key absorption law `ε ∘ δ ∘ ε = ε` for odd flat elements. -/
theorem erosion_opening (sz : Nat) (hodd : sz % 2 = 1) (x : Signal) :
    erosion (createFlatElement sz) (opening (createFlatElement sz) x) =
      erosion (createFlatElement sz) x := by
  have hol : (opening (createFlatElement sz) x).length = x.length := by
    rw [opening, dilation_length, erosion_length]
  refine ext_getD (by rw [erosion_length, erosion_length, hol]) ?_
  intro i hi
  have hix : i < x.length := by rwa [erosion_length, hol] at hi
  rw [erosion_getD _ _ i (by rw [hol]; exact hix), erosion_getD _ _ i hix]
  refine le_antisymm ?_ ?_
  · refine erosionAt_mono sz hodd _ x (by rw [hol]) ?_ i (by rw [hol]; exact hix)
    intro j hj
    exact opening_le_self sz hodd x j (by rwa [hol] at hj)
  · have := le_erosion_dilation sz hodd (erosion (createFlatElement sz) x) i
      (by rw [erosion_length]; exact hix)
    rw [erosion_getD _ _ i hix] at this
    rw [opening]
    rwa [erosion_getD _ _ i
      (by rw [dilation_length, erosion_length]; exact hix)] at this

/-- Idempotence of the opening for odd flat structuring elements. -/
theorem opening_idem (sz : Nat) (hodd : sz % 2 = 1) (x : Signal) :
    opening (createFlatElement sz) (opening (createFlatElement sz) x) =
      opening (createFlatElement sz) x := by
  conv_lhs => rw [opening]
  rw [erosion_opening sz hodd x, ← opening]

end MorphologicalFilter

namespace OutlierDetection

theorem interpolateLinear_length (input : Signal) (outliers : List Bool) :
    (interpolateLinear input outliers).length = input.length := by
  simp [interpolateLinear]

theorem interpolateMedian_length (windowSize : Nat) (input : Signal) (outliers : List Bool) :
    (interpolateMedian windowSize input outliers).length = input.length := by
  simp [interpolateMedian]

theorem arLoop_length (arOrder : Nat) (input : Signal) (outliers : List Bool) :
    ∀ idxs result, (arLoop arOrder input outliers idxs result).length = result.length := by
  intro idxs
  induction idxs with
  | nil => intro result; rfl
  | cons i rest ih =>
    intro result
    rw [arLoop]
    split
    · rw [ih]
      split <;> rw [List.length_set]
    · exact ih result

theorem interpolateAutoregressive_length (arOrder : Nat) (input : Signal)
    (outliers : List Bool) :
    (interpolateAutoregressive arOrder input outliers).length = input.length := by
  rw [interpolateAutoregressive, arLoop_length]

theorem outlier_process_length (sqrtFn : ℚ → ℚ) (st : State) (input : Signal) :
    (process sqrtFn st input).length = input.length := by
  rw [process]
  split
  · rename_i h
    rw [h]
  · cases st.interpolationMethod <;>
      simp [interpolateLinear_length, interpolateMedian_length,
        interpolateAutoregressive_length]

end OutlierDetection

namespace MorphologicalFilter

theorem opening_length (elem : List ℚ) (x : Signal) : (opening elem x).length = x.length := by
  rw [opening, dilation_length, erosion_length]

theorem closing_length (elem : List ℚ) (x : Signal) : (closing elem x).length = x.length := by
  rw [closing, erosion_length, dilation_length]

theorem morph_process_length (st : State) (input : Signal) :
    (process st input).length = input.length := by
  rw [process]
  split
  · rename_i h
    rw [h]
  · cases st.operation <;>
      simp [erosion_length, dilation_length, opening_length, closing_length]

end MorphologicalFilter

namespace WienerFilter

theorem wiener_process_length (st : State) (input : Signal) :
    (process st input).1.length = input.length := by
  rw [process]
  split
  · rename_i h
    rw [h]
  · exact lmsRun_length st.mu st.weights input input.length

end WienerFilter

namespace MedianFilter

theorem median_process_length (windowSize : Nat) (input : Signal) :
    (process windowSize input).length = input.length := by
  rw [process]
  split
  · rename_i h
    rw [h]
  · simp

end MedianFilter

namespace SavgolFilter

theorem savgol_process_length (st : State) (input : Signal) :
    (process st input).length = input.length := by
  rw [process]
  split
  · rename_i h
    rw [h]
  · simp

/-- The forward pass can only fail with a numerical (singularity) error. -/
theorem forwardAux_error (n : Nat) :
    ∀ fuel i M rhs e, forwardAux n fuel i M rhs = .error e → ∃ m, e = .numericalError m := by
  intro fuel
  induction fuel with
  | zero =>
    intro i M rhs e h
    rw [forwardAux] at h
    exact absurd h (by simp)
  | succ fuel ih =>
    intro i M rhs e h
    rw [forwardAux] at h
    split at h
    · injection h with h
      exact ⟨_, h.symm⟩
    · exact ih (i + 1) _ _ e h

/-- `calculateCoefficients` can only fail with a numerical error. -/
theorem calculateCoefficients_error (W K : Nat) (e : FilterError)
    (h : calculateCoefficients W K = .error e) : ∃ m, e = .numericalError m := by
  rw [calculateCoefficients] at h
  cases hg : gaussElimination (K + 1) (normalMatrix W) normalRhs with
  | error e0 =>
    rw [hg] at h
    simp only [Except.map] at h
    injection h with h
    rw [gaussElimination] at hg
    cases hfw : forwardAux (K + 1) (K + 1) 0 (normalMatrix W) normalRhs with
    | error e1 =>
      rw [hfw] at hg
      simp only [Except.map] at hg
      injection hg with hg
      subst h
      subst hg
      exact forwardAux_error (K + 1) (K + 1) 0 _ _ e1 hfw
    | ok s => rw [hfw] at hg; exact absurd hg (by simp [Except.map])
  | ok a => rw [hg] at h; exact absurd h (by simp [Except.map])

end SavgolFilter

namespace SavgolFilter

/-- An `InvalidConfiguration` error occurs exactly when a parameter
invariant is violated (a singular system would surface as the distinct
`NumericalError`). -/
theorem mk_invalid_iff (W K : Nat) :
    (∃ m, mk W K = .error (.invalidConfiguration m)) ↔ (W = 0 ∨ W % 2 = 0 ∨ W ≤ K) := by
  constructor
  · rintro ⟨m, hm⟩
    by_contra hc
    push_neg at hc
    obtain ⟨h1, h2, h3⟩ := hc
    rw [mk, if_neg (by omega), if_neg (by omega)] at hm
    cases hcc : calculateCoefficients W K with
    | error e =>
      rw [hcc] at hm
      simp only [Except.map] at hm
      injection hm with hm
      obtain ⟨m0, rfl⟩ := calculateCoefficients_error W K e hcc
      exact FilterError.noConfusion hm
    | ok coeffs =>
      rw [hcc] at hm
      exact absurd hm (by simp [Except.map])
  · intro hc
    rw [mk]
    by_cases h1 : W = 0 ∨ W % 2 = 0
    · exact ⟨_, by rw [if_pos h1]⟩
    · refine ⟨_, by rw [if_neg h1, if_pos (by omega)]⟩

end SavgolFilter

namespace MedianFilter

theorem median_mk_ok_iff (w : Nat) : mk w = .ok w ↔ (w ≠ 0 ∧ w % 2 = 1) := by
  rw [mk, IsValidWindowSize]
  constructor
  · intro h
    split at h
    · rename_i hv
      simp only [Bool.and_eq_true, decide_eq_true_eq, bne_iff_ne, ne_eq] at hv
      omega
    · exact absurd h (by simp)
  · intro ⟨h1, h2⟩
    rw [if_pos (by simp only [Bool.and_eq_true, decide_eq_true_eq, bne_iff_ne, ne_eq]; omega)]

theorem median_mk_error_iff (w : Nat) : (∃ e, mk w = .error e) ↔ (w = 0 ∨ w % 2 = 0) := by
  rw [mk, IsValidWindowSize]
  constructor
  · rintro ⟨e, he⟩
    split at he
    · exact absurd he (by simp)
    · rename_i hv
      simp only [Bool.and_eq_true, decide_eq_true_eq, bne_iff_ne, ne_eq, not_and] at hv
      omega
  · intro h
    exact ⟨"Window size must be positive and odd",
      by rw [if_neg (by simp only [Bool.and_eq_true, decide_eq_true_eq, bne_iff_ne, ne_eq]; omega)]⟩

end MedianFilter

namespace WienerFilter

theorem wiener_mk_ok_iff (o : Nat) (m l : ℚ) (rnd : Nat → ℚ) :
    mk o m l rnd = .ok ⟨o, m, l, resetWeights o rnd⟩ ↔
      (o ≠ 0 ∧ 0 < m ∧ m < 1 ∧ 0 < l ∧ l ≤ 1) := by
  rw [mk]
  constructor
  · intro h
    split at h
    · exact absurd h (by simp)
    · split at h
      · exact absurd h (by simp)
      · split at h
        · exact absurd h (by simp)
        · rename_i h1 h2 h3
          push_neg at h1 h2 h3
          exact ⟨h1, h2.1, h2.2, h3.1, h3.2⟩
  · intro ⟨h1, h2, h3, h4, h5⟩
    rw [if_neg h1, if_neg (by push_neg; exact ⟨h2, h3⟩), if_neg (by push_neg; exact ⟨h4, h5⟩)]

theorem wiener_mk_error_iff (o : Nat) (m l : ℚ) (rnd : Nat → ℚ) :
    (∃ e, mk o m l rnd = .error e) ↔
      ¬(o ≠ 0 ∧ 0 < m ∧ m < 1 ∧ 0 < l ∧ l ≤ 1) := by
  rw [mk]
  constructor
  · rintro ⟨e, he⟩ hc
    obtain ⟨h1, h2, h3, h4, h5⟩ := hc
    rw [if_neg h1, if_neg (by push_neg; exact ⟨h2, h3⟩),
      if_neg (by push_neg; exact ⟨h4, h5⟩)] at he
    exact absurd he (by simp)
  · intro hc
    by_cases h1 : o = 0
    · exact ⟨_, by rw [if_pos h1]⟩
    · by_cases h2 : m ≤ 0 ∨ 1 ≤ m
      · exact ⟨_, by rw [if_neg h1, if_pos h2]⟩
      · by_cases h3 : l ≤ 0 ∨ 1 < l
        · exact ⟨_, by rw [if_neg h1, if_neg h2, if_pos h3]⟩
        · push_neg at h2 h3
          exact absurd ⟨h1, h2.1, h2.2, h3.1, h3.2⟩ hc

end WienerFilter

namespace OutlierDetection

theorem outlier_mk_ok_iff (dm : DetectionMethod) (im : InterpolationMethod) (th : ℚ) (w : Nat) :
    mk dm im th w = .ok ⟨dm, im, th, w, 5⟩ ↔ (0 < th ∧ w ≠ 0 ∧ w % 2 = 1) := by
  rw [mk]
  constructor
  · intro h
    split at h
    · exact absurd h (by simp)
    · split at h
      · exact absurd h (by simp)
      · rename_i h1 h2
        push_neg at h1
        constructor
        · exact h1
        · omega
  · intro ⟨h1, h2, h3⟩
    rw [if_neg (by push_neg; exact h1), if_neg (by omega)]

theorem outlier_mk_error_iff (dm : DetectionMethod) (im : InterpolationMethod) (th : ℚ) (w : Nat) :
    (∃ e, mk dm im th w = .error e) ↔ ¬(0 < th ∧ w ≠ 0 ∧ w % 2 = 1) := by
  rw [mk]
  constructor
  · rintro ⟨e, he⟩ hc
    obtain ⟨h1, h2, h3⟩ := hc
    rw [if_neg (by push_neg; exact h1), if_neg (by omega)] at he
    exact absurd he (by simp)
  · intro hc
    by_cases h1 : th ≤ 0
    · exact ⟨_, by rw [if_pos h1]⟩
    · by_cases h2 : w = 0 ∨ w % 2 = 0
      · exact ⟨_, by rw [if_neg h1, if_pos h2]⟩
      · push_neg at h1
        exact absurd ⟨h1, by omega, by omega⟩ hc

end OutlierDetection

namespace MorphologicalFilter

theorem mkWithElement_ok_iff (op : Operation) (e : List ℚ) :
    mkWithElement op e = .ok ⟨op, e⟩ ↔ e ≠ [] := by
  rw [mkWithElement]
  constructor
  · intro h he
    rw [if_pos he] at h
    exact absurd h (by simp)
  · intro he
    rw [if_neg he]

theorem mkWithElement_error_iff (op : Operation) (e : List ℚ) :
    (∃ err, mkWithElement op e = .error err) ↔ e = [] := by
  rw [mkWithElement]
  constructor
  · rintro ⟨err, herr⟩
    by_contra he
    rw [if_neg he] at herr
    exact absurd herr (by simp)
  · intro he
    exact ⟨_, by rw [if_pos he]⟩

theorem mkFlat_ok_iff (op : Operation) (sz : Nat) :
    mkFlat op sz = .ok ⟨op, createFlatElement sz⟩ ↔ sz ≠ 0 := by
  rw [mkFlat]
  constructor
  · intro h he
    rw [if_pos he] at h
    exact absurd h (by simp)
  · intro he
    rw [if_neg he]

theorem mkFlat_error_iff (op : Operation) (sz : Nat) :
    (∃ err, mkFlat op sz = .error err) ↔ sz = 0 := by
  rw [mkFlat]
  constructor
  · rintro ⟨err, herr⟩
    by_contra he
    rw [if_neg he] at herr
    exact absurd herr (by simp)
  · intro he
    exact ⟨_, by rw [if_pos he]⟩

end MorphologicalFilter

section Claims

/-- C1: For every filter (median, adaptive predictive, morphological,
outlier detector, Savitzky-Golay) and every input signal, `process` returns
a signal of the same length as the input, and `process` applied to the
empty signal returns the empty signal. -/
theorem claim_C1_process_length_preservation :
    (∀ w input, (MedianFilter.process w input).length = input.length ∧
      MedianFilter.process w ([] : Signal) = []) ∧
    (∀ st input, (WienerFilter.process st input).1.length = input.length ∧
      (WienerFilter.process st ([] : Signal)).1 = []) ∧
    (∀ st input, (MorphologicalFilter.process st input).length = input.length ∧
      MorphologicalFilter.process st ([] : Signal) = []) ∧
    (∀ sqrtFn st input, (OutlierDetection.process sqrtFn st input).length = input.length ∧
      OutlierDetection.process sqrtFn st ([] : Signal) = []) ∧
    (∀ st input, (SavgolFilter.process st input).length = input.length ∧
      SavgolFilter.process st ([] : Signal) = []) := by
  refine ⟨fun w input => ⟨MedianFilter.median_process_length w input, rfl⟩,
    fun st input => ⟨WienerFilter.wiener_process_length st input, rfl⟩,
    fun st input => ⟨MorphologicalFilter.morph_process_length st input, rfl⟩,
    fun sqrtFn st input => ⟨OutlierDetection.outlier_process_length sqrtFn st input, rfl⟩,
    fun st input => ⟨SavgolFilter.savgol_process_length st input, rfl⟩⟩

set_option maxHeartbeats 4000000 in
/-- C2 (counterexample): on `[0,0,0,10,0,0,0]` with threshold 3 and window
5, every window around index 3 has MAD = 0, so the guard skips flagging:
index 3 is *not* flagged and linear interpolation leaves the 10 in place. -/
theorem claim_C2_counterexample :
    (OutlierDetection.detectMADBased 3 5 [0, 0, 0, 10, 0, 0, 0]).getD 3 false = false ∧
    (OutlierDetection.process (fun q => q)
        ⟨.MAD_BASED, .LINEAR, 3, 5, 5⟩ [0, 0, 0, 10, 0, 0, 0]).getD 3 0 = 10 ∧
    (10 : ℚ) ≠ 0 := by
  refine ⟨?_, ?_, by norm_num⟩
  · norm_num [OutlierDetection.detectMADBased, OutlierDetection.clippedIdx,
      SignalProcessor.median, SignalProcessor.mad, SignalProcessor.sortList,
      SignalProcessor.insertSorted, List.range_succ, List.range', List.cons_ne_nil]
  · norm_num [OutlierDetection.process, OutlierDetection.detectOutliers,
      OutlierDetection.detectMADBased, OutlierDetection.interpolateLinear,
      OutlierDetection.clippedIdx,
      SignalProcessor.median, SignalProcessor.mad, SignalProcessor.sortList,
      SignalProcessor.insertSorted, List.range_succ, List.range', List.cons_ne_nil]

set_option maxHeartbeats 4000000 in
/-- C2 (amended): the MAD-based detector with threshold 3.0 and window 5 on
`[0,0,0,10,0,0,0]` flags no index at all — every boundary-clipped window has
MAD = 0, and flagging is skipped when MAD is zero — so the subsequent
interpolation pass returns the input unchanged (index 3 keeps the value 10). -/
theorem claim_C2_amended :
    OutlierDetection.detectMADBased 3 5 [0, 0, 0, 10, 0, 0, 0] =
      [false, false, false, false, false, false, false] ∧
    OutlierDetection.process (fun q => q)
        ⟨.MAD_BASED, .LINEAR, 3, 5, 5⟩ [0, 0, 0, 10, 0, 0, 0] =
      [0, 0, 0, 10, 0, 0, 0] := by
  constructor
  · norm_num [OutlierDetection.detectMADBased, OutlierDetection.clippedIdx,
      SignalProcessor.median, SignalProcessor.mad, SignalProcessor.sortList,
      SignalProcessor.insertSorted, List.range_succ, List.range', List.cons_ne_nil]
  · norm_num [OutlierDetection.process, OutlierDetection.detectOutliers,
      OutlierDetection.detectMADBased, OutlierDetection.interpolateLinear,
      OutlierDetection.clippedIdx,
      SignalProcessor.median, SignalProcessor.mad, SignalProcessor.sortList,
      SignalProcessor.insertSorted, List.range_succ, List.range', List.cons_ne_nil]

/-- C3 (counterexample): the source target at the first sample is the raw
sample itself (not the right neighbour), and at the last sample it is the
average of the previous sample and the sample itself (not just the left
neighbour); running both recurrences on `[2,4]` with `μ = 1/2`, `w₀ = [0]`
produces different outputs. -/
theorem claim_C3_counterexample :
    WienerFilter.lmsDesired [2, 4] 0 = 2 ∧ WienerFilter.claimTarget [2, 4] 0 = 4 ∧
    WienerFilter.lmsDesired [2, 4] 1 = 3 ∧ WienerFilter.claimTarget [2, 4] 1 = 2 ∧
    (WienerFilter.processLMS (1 / 2) [0] [2, 4]).1 = [0, 8] ∧
    (WienerFilter.processLMSClaim (1 / 2) [0] [2, 4]).1 = [0, 16] ∧
    ([0, 8] : Signal) ≠ [0, 16] := by
  refine ⟨by norm_num [WienerFilter.lmsDesired], by norm_num [WienerFilter.claimTarget],
    by norm_num [WienerFilter.lmsDesired], by norm_num [WienerFilter.claimTarget],
    ?_, ?_, by norm_num⟩
  · norm_num [WienerFilter.processLMS, WienerFilter.lmsRun, WienerFilter.lmsStep,
      WienerFilter.shiftDelay, WienerFilter.dot, WienerFilter.lmsDesired]
  · norm_num [WienerFilter.processLMSClaim, WienerFilter.lmsRunClaim,
      WienerFilter.lmsStepClaim, WienerFilter.shiftDelay, WienerFilter.dot,
      WienerFilter.claimTarget]

/-- C3 (amended): in the LMS pass, for every sample `n` the emitted output
is `y = weights · delay` computed before the update, the weights follow
`weight[i] += μ · error · delay[i]`, and the target forming the error is the
raw sample itself at `n = 0`, and for `n ≥ 1` the average of `input[n-1]`
and `input[n+1]`, the latter degrading to `input[n]` at the last sample. -/
theorem claim_C3_amended (mu : ℚ) (w0 : List ℚ) (hw0 : w0 ≠ []) (input : Signal)
    (n : Nat) (hn : n < input.length) :
    (WienerFilter.processLMS mu w0 input).1.getD n 0 =
      WienerFilter.dot (WienerFilter.specWeights mu w0 input n)
        (WienerFilter.delayVec w0.length input n) :=
  WienerFilter.processLMS_spec mu w0 hw0 input n hn

/-- C3 (witness): the amended statement instantiated at `μ = 1/2`,
`w₀ = [0]`, input `[2,4]`, sample 1. -/
theorem claim_C3_amended_witness :
    ([0] : List ℚ) ≠ [] ∧ 1 < ([2, 4] : Signal).length ∧
    (WienerFilter.processLMS (1 / 2) [0] [2, 4]).1.getD 1 0 =
      WienerFilter.dot (WienerFilter.specWeights (1 / 2) [0] [2, 4] 1)
        (WienerFilter.delayVec ([0] : List ℚ).length [2, 4] 1) :=
  ⟨by simp, by simp, claim_C3_amended (1 / 2) [0] (by simp) [2, 4] 1 (by simp)⟩

/-- C4 (counterexample): on mismatched lengths `calculateSNR` returns 0.0,
not the claimed 100.0 (the 100.0 sentinel is reserved for near-zero noise
power). -/
theorem claim_C4_counterexample :
    QualityMetrics.calculateSNR (fun q => q) [1] [] = 0 ∧ (0 : ℚ) ≠ 100 := by
  constructor
  · norm_num [QualityMetrics.calculateSNR]
  · norm_num

/-- C4 (amended): for every pair of signals whose lengths differ or where
the first signal is empty (which covers "either is empty", since an empty
first signal with a non-empty second also mismatches in length), all three
quality metrics return the neutral value 0.0 — including `calculateSNR`,
whose 100.0 sentinel is only for near-zero noise power. -/
theorem claim_C4_amended (log10 sqrtFn : ℚ → ℚ) (a b : Signal)
    (h : a.length ≠ b.length ∨ a = []) :
    QualityMetrics.calculateSNR log10 a b = 0 ∧
    QualityMetrics.calculateMSE a b = 0 ∧
    QualityMetrics.calculateCorrelation sqrtFn a b = 0 := by
  refine ⟨?_, ?_, ?_⟩
  · rw [QualityMetrics.calculateSNR, if_pos h]
  · rw [QualityMetrics.calculateMSE, if_pos h]
  · rw [QualityMetrics.calculateCorrelation, if_pos h]

/-- C4 (witness): the amended statement at `a = [1]`, `b = []`. -/
theorem claim_C4_amended_witness :
    (([1] : Signal).length ≠ ([] : Signal).length ∨ ([1] : Signal) = []) ∧
    QualityMetrics.calculateSNR (fun q => q) [1] [] = 0 ∧
    QualityMetrics.calculateMSE [1] [] = 0 ∧
    QualityMetrics.calculateCorrelation (fun q => q) [1] [] = 0 :=
  ⟨by simp, claim_C4_amended (fun q => q) (fun q => q) [1] [] (by simp)⟩

/-- C5: the Savitzky-Golay filter with any valid configuration (odd window
`W`, polynomial order `K < W` — i.e. any configuration the constructor
accepts), applied to any signal whose samples lie exactly on a polynomial of
degree at most `K`, reproduces that signal exactly (interior points, i.e.
indices at least a half-window away from both ends; arithmetic is exact
rational, so "up to floating-point tolerance" becomes equality). -/
theorem claim_C5_savgol_polynomial_reproduction (W K : Nat) (st : SavgolFilter.State)
    (hmk : SavgolFilter.mk W K = .ok st) (input : Signal) (p : Polynomial ℚ)
    (hdeg : p.natDegree ≤ K)
    (hsig : ∀ m, m < input.length → input.getD m 0 = p.eval (m : ℚ))
    (i : Nat) (hl : W / 2 ≤ i) (hr : i + W / 2 < input.length) :
    (SavgolFilter.process st input).getD i 0 = input.getD i 0 :=
  SavgolFilter.reproduces_poly W K st hmk input p hdeg hsig i hl hr

set_option maxHeartbeats 4000000 in
/-- C5 (witness): window 3, order 1, on the constant polynomial 1 sampled
five times, at the interior point 2. -/
theorem claim_C5_witness :
    SavgolFilter.mk 3 1 = .ok ⟨3, 1, [1 / 3, 1 / 3, 1 / 3]⟩ ∧
    (Polynomial.C (1 : ℚ)).natDegree ≤ 1 ∧
    (SavgolFilter.process ⟨3, 1, [1 / 3, 1 / 3, 1 / 3]⟩
      ([1, 1, 1, 1, 1] : Signal)).getD 2 0 = ([1, 1, 1, 1, 1] : Signal).getD 2 0 := by
  have hmk : SavgolFilter.mk 3 1 = .ok ⟨3, 1, [1 / 3, 1 / 3, 1 / 3]⟩ := by
    norm_num [SavgolFilter.mk, SavgolFilter.calculateCoefficients,
      SavgolFilter.gaussElimination, SavgolFilter.forwardAux, SavgolFilter.pivotLoop,
      SavgolFilter.swapRows, SavgolFilter.swapVec, SavgolFilter.elimM, SavgolFilter.elimV,
      SavgolFilter.backSolveFun, SavgolFilter.natList, SavgolFilter.sumFrom,
      SavgolFilter.normalMatrix, SavgolFilter.normalRhs, Except.map]
  refine ⟨hmk, by simp, ?_⟩
  refine claim_C5_savgol_polynomial_reproduction 3 1 _ hmk [1, 1, 1, 1, 1]
    (Polynomial.C 1) (by simp) ?_ 2 (by norm_num) (by norm_num)
  intro m hm
  rw [Polynomial.eval_C]
  simp only [List.length_cons, List.length_nil] at hm
  interval_cases m <;> rfl

set_option maxHeartbeats 4000000 in
/-- C6 (counterexample): with the flat structuring element of even size 2
the code's opening (whose dilation does not reflect the element) is not
idempotent: on `[1,0,2,0,3]` the first opening gives `[1,1,0,0,0]` and the
second `[1,1,1,0,0]`. -/
theorem claim_C6_counterexample :
    MorphologicalFilter.opening (MorphologicalFilter.createFlatElement 2)
        (MorphologicalFilter.opening (MorphologicalFilter.createFlatElement 2)
          [1, 0, 2, 0, 3]) ≠
      MorphologicalFilter.opening (MorphologicalFilter.createFlatElement 2)
        [1, 0, 2, 0, 3] := by
  norm_num [MorphologicalFilter.opening, MorphologicalFilter.erosion,
    MorphologicalFilter.dilation, MorphologicalFilter.erosionAt,
    MorphologicalFilter.dilationAt, MorphologicalFilter.eroFold,
    MorphologicalFilter.dilFold, MorphologicalFilter.createFlatElement,
    List.range_succ, List.getD, Int.toNat_ofNat, min_def, max_def]

/-- C6 (amended): for every signal and every flat (all-zero) structuring
element of odd size, the morphological opening (erosion followed by dilation
under the same fixed element) is idempotent.  (For even sizes the window is
asymmetric and idempotence fails — see the counterexample.) -/
theorem claim_C6_amended (sz : Nat) (hodd : sz % 2 = 1) (x : Signal) :
    MorphologicalFilter.opening (MorphologicalFilter.createFlatElement sz)
        (MorphologicalFilter.opening (MorphologicalFilter.createFlatElement sz) x) =
      MorphologicalFilter.opening (MorphologicalFilter.createFlatElement sz) x :=
  MorphologicalFilter.opening_idem sz hodd x

set_option maxHeartbeats 4000000 in
/-- C6 (witness): the odd flat element of size 3 on `[1,0,2,0,3]`. -/
theorem claim_C6_amended_witness :
    3 % 2 = 1 ∧
    MorphologicalFilter.opening (MorphologicalFilter.createFlatElement 3)
        (MorphologicalFilter.opening (MorphologicalFilter.createFlatElement 3)
          [1, 0, 2, 0, 3]) =
      MorphologicalFilter.opening (MorphologicalFilter.createFlatElement 3)
        [1, 0, 2, 0, 3] :=
  ⟨by norm_num, claim_C6_amended 3 (by norm_num) [1, 0, 2, 0, 3]⟩

set_option maxHeartbeats 4000000 in
/-- C7: the median filter with window 3 on `[1,2,100,2,1]` returns exactly
`[1,2,2,2,1]`; each boundary window is clipped to the signal and then padded
with the nearest boundary sample back up to exactly 3 entries before the
sort-and-middle median is taken (the window median is by definition the
median of that padded window, whose length is 3 at every index here). -/
theorem claim_C7_median_window3_example :
    MedianFilter.process 3 [1, 2, 100, 2, 1] = [1, 2, 2, 2, 1] ∧
    (∀ w input index, MedianFilter.computeWindowMedian w input index =
      SignalProcessor.median (MedianFilter.paddedWindow w input index)) ∧
    (MedianFilter.paddedWindow 3 [1, 2, 100, 2, 1] 0).length = 3 ∧
    (MedianFilter.paddedWindow 3 [1, 2, 100, 2, 1] 1).length = 3 ∧
    (MedianFilter.paddedWindow 3 [1, 2, 100, 2, 1] 2).length = 3 ∧
    (MedianFilter.paddedWindow 3 [1, 2, 100, 2, 1] 3).length = 3 ∧
    (MedianFilter.paddedWindow 3 [1, 2, 100, 2, 1] 4).length = 3 := by
  refine ⟨?_, fun w input index => rfl, ?_, ?_, ?_, ?_, ?_⟩
  · norm_num [MedianFilter.process, MedianFilter.computeWindowMedian,
      SignalProcessor.median, SignalProcessor.sortList, SignalProcessor.insertSorted,
      List.range_succ, List.range', List.cons_ne_nil]
  all_goals norm_num [MedianFilter.paddedWindow, List.range']

/-- C8: the adaptive predictive filter's weight vector is the only state
`process` mutates (order, μ and λ are untouched); a `process` call stores
the LMS pass's final weights, which is exactly the state the next call
starts from; and `setParameters` re-validates and resets the weights so
that, for the same stream of random draws, a reconfigured filter is in the
same state as a freshly constructed one (hence two successive `process`
calls after reconfiguration behave as on a new instance). -/
theorem claim_C8_adaptive_state :
    (∀ st o m l rnd, WienerFilter.setParameters st o m l rnd = WienerFilter.mk o m l rnd) ∧
    (∀ st input, (WienerFilter.process st input).2.filterOrder = st.filterOrder ∧
      (WienerFilter.process st input).2.mu = st.mu ∧
      (WienerFilter.process st input).2.lambda = st.lambda) ∧
    (∀ (st : WienerFilter.State) input, input ≠ [] →
      (WienerFilter.process st input).2.weights =
        (WienerFilter.processLMS st.mu st.weights input).2 ∧
      (WienerFilter.process st input).1 =
        (WienerFilter.processLMS st.mu st.weights input).1) ∧
    (∀ (st : WienerFilter.State), WienerFilter.process st [] = ([], st)) := by
  refine ⟨fun st o m l rnd => rfl, ?_, ?_, fun st => rfl⟩
  · intro st input
    rw [WienerFilter.process]
    split <;> exact ⟨rfl, rfl, rfl⟩
  · intro st input h
    rw [WienerFilter.process, if_neg h]
    exact ⟨rfl, rfl⟩

/-- C8 (witness): the stateful conjunct instantiated at a concrete filter
state and the input `[2,4]`. -/
theorem claim_C8_witness :
    ([2, 4] : Signal) ≠ [] ∧
    (WienerFilter.process ⟨1, 1 / 2, 1, [0]⟩ [2, 4]).2.weights =
      (WienerFilter.processLMS (1 / 2) [0] [2, 4]).2 ∧
    (WienerFilter.process ⟨1, 1 / 2, 1, [0]⟩ [2, 4]).1 =
      (WienerFilter.processLMS (1 / 2) [0] [2, 4]).1 :=
  ⟨by simp, claim_C8_adaptive_state.2.2.1 ⟨1, 1 / 2, 1, [0]⟩ [2, 4] (by simp)⟩

/-- C9: for every filter kind, construction (and explicit reconfiguration,
which runs the same validation) rejects a configuration exactly when a
parameter invariant is violated — window size zero or even, filter order 0,
threshold not strictly positive, μ outside (0,1), λ outside (0,1],
polynomial order ≥ window size, empty structuring element — and on success
the parameters are stored verbatim, never clamped (for the Savitzky-Golay
filter the `InvalidConfiguration` kind is characterised; a singular system
would surface as the distinct `NumericalError`). -/
theorem claim_C9_configuration_validation :
    (∀ w, MedianFilter.mk w = .ok w ↔ (w ≠ 0 ∧ w % 2 = 1)) ∧
    (∀ w, (∃ e, MedianFilter.mk w = .error e) ↔ (w = 0 ∨ w % 2 = 0)) ∧
    (∀ o (m l : ℚ) rnd, WienerFilter.mk o m l rnd =
        .ok ⟨o, m, l, WienerFilter.resetWeights o rnd⟩ ↔
      (o ≠ 0 ∧ 0 < m ∧ m < 1 ∧ 0 < l ∧ l ≤ 1)) ∧
    (∀ o (m l : ℚ) rnd, (∃ e, WienerFilter.mk o m l rnd = .error e) ↔
      ¬(o ≠ 0 ∧ 0 < m ∧ m < 1 ∧ 0 < l ∧ l ≤ 1)) ∧
    (∀ dm im (th : ℚ) w, OutlierDetection.mk dm im th w = .ok ⟨dm, im, th, w, 5⟩ ↔
      (0 < th ∧ w ≠ 0 ∧ w % 2 = 1)) ∧
    (∀ dm im (th : ℚ) w, (∃ e, OutlierDetection.mk dm im th w = .error e) ↔
      ¬(0 < th ∧ w ≠ 0 ∧ w % 2 = 1)) ∧
    (∀ op (e : List ℚ), MorphologicalFilter.mkWithElement op e = .ok ⟨op, e⟩ ↔ e ≠ []) ∧
    (∀ op (e : List ℚ), (∃ err, MorphologicalFilter.mkWithElement op e = .error err) ↔
      e = []) ∧
    (∀ op sz, MorphologicalFilter.mkFlat op sz =
        .ok ⟨op, MorphologicalFilter.createFlatElement sz⟩ ↔ sz ≠ 0) ∧
    (∀ op sz, (∃ err, MorphologicalFilter.mkFlat op sz = .error err) ↔ sz = 0) ∧
    (∀ W K, (∃ m, SavgolFilter.mk W K = .error (.invalidConfiguration m)) ↔
      (W = 0 ∨ W % 2 = 0 ∨ W ≤ K)) :=
  ⟨MedianFilter.median_mk_ok_iff, MedianFilter.median_mk_error_iff,
    WienerFilter.wiener_mk_ok_iff, WienerFilter.wiener_mk_error_iff,
    OutlierDetection.outlier_mk_ok_iff, OutlierDetection.outlier_mk_error_iff,
    MorphologicalFilter.mkWithElement_ok_iff, MorphologicalFilter.mkWithElement_error_iff,
    MorphologicalFilter.mkFlat_ok_iff, MorphologicalFilter.mkFlat_error_iff,
    SavgolFilter.mk_invalid_iff⟩

/-- C10 (counterexample): with the valid configuration `W = 3, K = 1` and a
one-sample signal, the tap at `t = 0` around centre 0 requests index −1,
whose left reflection is index 1 — not less than the signal length 1, i.e.
an out-of-bounds read. -/
theorem claim_C10_counterexample :
    SavgolFilter.reflectIndex 1 ((0 : ℤ) - ((3 / 2 : Nat) : ℤ) + 0) = 1 ∧
    ¬(SavgolFilter.reflectIndex 1 ((0 : ℤ) - ((3 / 2 : Nat) : ℤ) + 0) < ((1 : Nat) : ℤ)) := by
  constructor <;> norm_num [SavgolFilter.reflectIndex]

/-- C10 (amended): whenever the signal is longer than the half-window, every
index the filter reads during `process` (centres `< N`, taps `t < W`) is
mapped into `0 ≤ · < N` by the reflection; for signals of length at most the
half-window the left reflection `−index` can reach the signal length (see
the counterexample). -/
theorem claim_C10_amended (W N : Nat) (hN : W / 2 < N) (center : Nat)
    (hc : center < N) (t : Nat) (ht : t < W) :
    0 ≤ SavgolFilter.reflectIndex N ((center : ℤ) - ((W / 2 : Nat) : ℤ) + t) ∧
      SavgolFilter.reflectIndex N ((center : ℤ) - ((W / 2 : Nat) : ℤ) + t) < (N : ℤ) :=
  SavgolFilter.reflect_bounds W N hN center hc t ht

/-- C10 (witness): `W = 3`, signal length 5, centre 0, tap 0 (a reflected
boundary read). -/
theorem claim_C10_amended_witness :
    3 / 2 < 5 ∧ 0 < 5 ∧ 0 < 3 ∧
    (0 ≤ SavgolFilter.reflectIndex 5 ((0 : ℤ) - ((3 / 2 : Nat) : ℤ) + 0) ∧
      SavgolFilter.reflectIndex 5 ((0 : ℤ) - ((3 / 2 : Nat) : ℤ) + 0) < ((5 : Nat) : ℤ)) :=
  ⟨by norm_num, by norm_num, by norm_num,
    claim_C10_amended 3 5 (by norm_num) 0 (by norm_num) 0 (by norm_num)⟩

end Claims
